import Mathlib

/-!
Verification development for the pdf-backend repository.

The repository implements a structured-text-to-PDF layout engine in
several iterations of one endpoint file (`src/api/create-pdf.js` holds two
versions separated by a document marker; `src/unnamed/part_000 .. part_005`
hold further versions).  This file gives a shallow embedding of the pure
core of that code — the greedy line wrapper, the page-cursor space check,
the outline parsers and the drawing loops — and proves or refutes the
frozen claims about them.

Conventions used throughout:
* JavaScript strings are modelled by Lean `String` and, where character
  scanning is needed, by `List Char` via `String.data`.
* Font width measurement `font.widthOfTextAtSize(text, size)` is abstracted
  as a function `μ : String → Nat`; the claims quantify over all fonts and
  sizes, and the code only compares measured widths against a fixed
  `maxWidth`, so an arbitrary measure is a faithful abstraction.
* Regular expressions of the source are translated to explicit scanning
  functions; each scanning function's doc comment names the regex it
  models, with JS greedy/backtracking semantics resolved by hand.
* Vertical geometry uses `Int` (all offsets in the code move by integer
  amounts from integer starting points).
-/

/-! ## Character layer: whitespace, case folding, digits -/

/-- Whitespace test modelling the JS `\s` character class on the characters
that actually occur in this domain (space, tab, LF, CR, VT, FF, NBSP). -/
def isWs (c : Char) : Bool :=
  c == ' ' || c == '\t' || c == '\n' || c == '\r' || c == '\x0b' || c == '\x0c' || c == ' '

/-- Case folding for the JS case-insensitive regex flag and
`String.prototype.toLowerCase`, covering ASCII letters plus the German
umlauts that occur in the repository's category labels. -/
def lowerChar (c : Char) : Char :=
  if c = 'Ä' then 'ä' else if c = 'Ö' then 'ö' else if c = 'Ü' then 'ü' else c.toLower

/-- Lowercasing of a whole string (`String.prototype.toLowerCase`). -/
def lowerStr (s : String) : String := String.mk (s.data.map lowerChar)

/-- Drop leading whitespace (the greedy `\s*` of a regex, or the leading
half of `String.prototype.trim`). -/
def dropWs (l : List Char) : List Char := l.dropWhile isWs

/-- Character-level trim: drop leading and trailing whitespace
(`String.prototype.trim`). -/
def trimChars (l : List Char) : List Char :=
  ((l.dropWhile isWs).reverse.dropWhile isWs).reverse

/-- `String.prototype.trim`. -/
def strTrim (s : String) : String := String.mk (trimChars s.data)

/-- Remove all carriage returns (`.replace(/\r/g, "")`). -/
def removeCR (s : String) : String := String.mk (s.data.filter (fun c => c ≠ '\r'))

/-- Case-insensitive literal match: if `l` starts with `pat` up to
`lowerChar`, return the rest of `l`.  Models matching an escaped literal
inside a regex with the `i` flag. -/
def matchCI : List Char → List Char → Option (List Char)
  | [], l => some l
  | _ :: _, [] => none
  | p :: ps, c :: cs => if lowerChar p = lowerChar c then matchCI ps cs else none

/-- Case-sensitive literal match returning the remainder. -/
def matchCS : List Char → List Char → Option (List Char)
  | [], l => some l
  | _ :: _, [] => none
  | p :: ps, c :: cs => if p = c then matchCS ps cs else none

/-- Substring test (`regex.test` with a literal, case-sensitive pattern). -/
def containsSub (pat : List Char) : List Char → Bool
  | [] => (matchCS pat []).isSome
  | l@(_ :: cs) => (matchCS pat l).isSome || containsSub pat cs

/-- Case-insensitive substring test (`/pat/i.test(s)`). -/
def containsCI (pat : List Char) : List Char → Bool
  | [] => (matchCI pat []).isSome
  | l@(_ :: cs) => (matchCI pat l).isSome || containsCI pat cs

/-! ## Splitting on whitespace runs: `String.prototype.split(/\s+/)`

JS `split(/\s+/)` splits at maximal whitespace runs; a leading run yields
a leading empty field and a trailing run a trailing empty field
(`"".split(/\s+/) = [""]`, `" a ".split(/\s+/) = ["", "a", ""]`). -/

/-- Prepend a character to the first field of a split result. -/
def consHead (c : Char) : List (List Char) → List (List Char)
  | [] => [[c]]
  | t :: ts => (c :: t) :: ts

/-- Field list of `String.prototype.split(/\s+/)` at character level.
A whitespace character that continues a run contributes nothing; one that
ends (reading right to left: starts) a run opens a new field. -/
def splitWsChars : List Char → List (List Char)
  | [] => [[]]
  | [c] => if isWs c then [[], []] else [[c]]
  | c :: c2 :: cs =>
    if isWs c then
      (if isWs c2 then splitWsChars (c2 :: cs) else [] :: splitWsChars (c2 :: cs))
    else
      consHead c (splitWsChars (c2 :: cs))

/-- `String.prototype.split(/\s+/)`. -/
def splitWs (s : String) : List String := (splitWsChars s.data).map String.mk

/-- Splitting a string on every newline character
(`String.prototype.split("\n")`). -/
def splitNLChars : List Char → List (List Char)
  | [] => [[]]
  | c :: cs => if c = '\n' then [] :: splitNLChars cs else consHead c (splitNLChars cs)

/-- `String.prototype.split("\n")`. -/
def splitNL (s : String) : List String := (splitNLChars s.data).map String.mk

/-- `Array.prototype.join("\n")` — used to model re-wrapping the joined
output of the wrapper, and to build multi-line inputs for the parsers. -/
def joinNL : List String → String
  | [] => ""
  | [l] => l
  | l :: ls => l ++ "\n" ++ joinNL ls

/-! ## The greedy line wrapper

`wrapLines(text, font, size, maxWidth)` appears verbatim (up to variable
names) in `src/api/create-pdf.js` (both versions), `src/unnamed/part_000`,
`part_001`, `part_002` and `part_003`:

```js
const words = String(text || '').split(/\s+/);
const lines = [];
let line = '';
for (const w of words) {
  const test = line ? line + ' ' + w : w;
  const width = font.widthOfTextAtSize(test, size);
  if (width > maxWidth && line) { lines.push(line); line = w; }
  else { line = test; }
}
if (line) lines.push(line);
return lines;
```
-/

/-- The loop of `wrapLines` over the token list, carrying the current
line buffer. -/
def wrapAux (μ : String → Nat) (maxW : Nat) : List String → String → List String
  | [], line => if line = "" then [] else [line]
  | w :: ws, line =>
    let test := if line = "" then w else line ++ " " ++ w
    if maxW < μ test ∧ line ≠ "" then line :: wrapAux μ maxW ws w
    else wrapAux μ maxW ws test

/-- `wrapLines` from the source, with the font/size pair abstracted as the
measure `μ`. -/
def wrapLines (μ : String → Nat) (maxW : Nat) (text : String) : List String :=
  wrapAux μ maxW (splitWs text) ""

/-- Sample measure for concrete evaluations: ten units per character. -/
def charWidth10 (s : String) : Nat := s.data.length * 10

/-! ## Facts about `splitWs` needed for the wrapper claims -/

theorem consHead_ne_nil (c : Char) (r : List (List Char)) : consHead c r ≠ [] := by
  cases r <;> simp [consHead]

theorem splitWsChars_ne_nil : ∀ l : List Char, splitWsChars l ≠ []
  | [] => by simp [splitWsChars]
  | [c] => by cases hc : isWs c <;> simp [splitWsChars, hc]
  | c :: c2 :: cs => by
    have ih := splitWsChars_ne_nil (c2 :: cs)
    cases hc : isWs c
    · simpa only [splitWsChars, hc, Bool.false_eq_true, if_false] using
        consHead_ne_nil c (splitWsChars (c2 :: cs))
    · cases h2 : isWs c2
      · simp [splitWsChars, hc, h2]
      · simpa only [splitWsChars, hc, h2, if_true] using ih

theorem consHead_forall {P : Char → Prop} {c : Char} {r : List (List Char)}
    (hc : P c) (hr : ∀ t ∈ r, ∀ d ∈ t, P d) :
    ∀ t ∈ consHead c r, ∀ d ∈ t, P d := by
  cases r with
  | nil =>
    intro t ht d hd
    simp only [consHead, List.mem_singleton] at ht
    subst ht
    rcases List.mem_singleton.mp hd with rfl
    exact hc
  | cons t0 ts =>
    intro t ht d hd
    rcases List.mem_cons.mp ht with rfl | h
    · rcases List.mem_cons.mp hd with rfl | h'
      · exact hc
      · exact hr t0 (List.mem_cons_self _ _) d h'
    · exact hr t (List.mem_cons_of_mem _ h) d hd

/-- Every field produced by `split(/\s+/)` is free of whitespace. -/
theorem splitWsChars_wsFree :
    ∀ l : List Char, ∀ t ∈ splitWsChars l, ∀ c ∈ t, isWs c = false
  | [] => by simp [splitWsChars]
  | [c] => by cases hc : isWs c <;> simp [splitWsChars, hc]
  | c :: c2 :: cs => by
    have ih := splitWsChars_wsFree (c2 :: cs)
    cases hc : isWs c
    · intro t ht
      simp only [splitWsChars, hc, Bool.false_eq_true, if_false] at ht
      exact consHead_forall (by simp [hc]) ih t ht
    · cases h2 : isWs c2
      · intro t ht
        simp only [splitWsChars, hc, h2, if_true, Bool.false_eq_true, if_false,
          List.mem_cons] at ht
        rcases ht with rfl | h
        · simp
        · exact ih t h
      · intro t ht
        simp only [splitWsChars, hc, h2, if_true] at ht
        exact ih t ht

/-- On all-whitespace input every field of `split(/\s+/)` is empty. -/
theorem splitWsChars_all_ws :
    ∀ l : List Char, (∀ c ∈ l, isWs c = true) → ∀ t ∈ splitWsChars l, t = []
  | [] => by simp [splitWsChars]
  | [c] => by
    intro hall
    have hc : isWs c = true := hall c (List.mem_cons_self _ _)
    simp [splitWsChars, hc]
  | c :: c2 :: cs => by
    intro hall
    have hc : isWs c = true := hall c (List.mem_cons_self _ _)
    have hcs : ∀ d ∈ c2 :: cs, isWs d = true :=
      fun d hd => hall d (List.mem_cons_of_mem _ hd)
    have h2 : isWs c2 = true := hcs c2 (List.mem_cons_self _ _)
    have ih := splitWsChars_all_ws (c2 :: cs) hcs
    simpa only [splitWsChars, hc, h2, if_true] using ih

/-! ## Claim C2: every wrapped line fits or is a single unsplittable token -/

/-- Soundness invariant of the `wrapLines` loop: a flushed line either
measures within `maxWidth` or is one of the input tokens, and flushed
lines are never empty. -/
theorem wrapAux_sound (μ : String → Nat) (maxW : Nat) (S : String → Prop) :
    ∀ (ws : List String) (line : String),
      (∀ w ∈ ws, S w) → (line = "" ∨ μ line ≤ maxW ∨ S line) →
      ∀ l ∈ wrapAux μ maxW ws line, l ≠ "" ∧ (μ l ≤ maxW ∨ S l)
  | [], line => by
    intro _ hline l hl
    by_cases h : line = ""
    · simp [wrapAux, h] at hl
    · simp only [wrapAux, h, if_false, List.mem_singleton] at hl
      subst hl
      exact ⟨h, hline.resolve_left h⟩
  | w :: ws, line => by
    intro hws hline l hl
    have hwS : S w := hws w (List.mem_cons_self _ _)
    have hwsS : ∀ u ∈ ws, S u := fun u hu => hws u (List.mem_cons_of_mem _ hu)
    by_cases he : line = ""
    · subst he
      simp only [wrapAux, if_pos rfl, ne_eq, not_true_eq_false, and_false,
        if_false] at hl
      exact wrapAux_sound μ maxW S ws w hwsS (Or.inr (Or.inr hwS)) l hl
    · simp only [wrapAux, if_neg he] at hl
      by_cases hgt : maxW < μ (line ++ " " ++ w)
      · rw [if_pos ⟨hgt, he⟩] at hl
        rcases List.mem_cons.mp hl with rfl | h
        · exact ⟨he, hline.resolve_left he⟩
        · exact wrapAux_sound μ maxW S ws w hwsS (Or.inr (Or.inr hwS)) l h
      · rw [if_neg (fun hco => hgt hco.1)] at hl
        exact wrapAux_sound μ maxW S ws (line ++ " " ++ w) hwsS
          (Or.inr (Or.inl (Nat.le_of_not_lt hgt))) l hl

/-- On a token list of empty tokens the wrapper keeps an empty buffer and
emits nothing. -/
theorem wrapAux_all_empty (μ : String → Nat) (maxW : Nat) :
    ∀ ws : List String, (∀ w ∈ ws, w = "") → wrapAux μ maxW ws "" = []
  | [] => by intro _; simp [wrapAux]
  | w :: ws => by
    intro h
    have hw : w = "" := h w (List.mem_cons_self _ _)
    subst hw
    have hws : ∀ u ∈ ws, u = "" := fun u hu => h u (List.mem_cons_of_mem _ hu)
    simpa [wrapAux] using wrapAux_all_empty μ maxW ws hws

/-- Claim C2: for every input text, measure and width, each line returned
by `wrapLines` either measures at most `maxWidth` or is a single
whitespace-free token of the input (an unsplittable token wider than
`maxWidth` is emitted unsplit); empty or whitespace-only input yields no
lines. -/
theorem claim_C2_wrap_width (μ : String → Nat) (maxW : Nat) (text : String) :
    (∀ l ∈ wrapLines μ maxW text,
        l ≠ "" ∧ (μ l ≤ maxW ∨ (l ∈ splitWs text ∧ ∀ c ∈ l.data, isWs c = false)))
    ∧ ((∀ c ∈ text.data, isWs c = true) → wrapLines μ maxW text = []) := by
  constructor
  · intro l hl
    have h := wrapAux_sound μ maxW (fun u => u ∈ splitWs text) (splitWs text) ""
      (fun w hw => hw) (Or.inl rfl) l hl
    refine ⟨h.1, h.2.imp id (fun hmem => ⟨hmem, ?_⟩)⟩
    simp only [splitWs, List.mem_map] at hmem
    obtain ⟨t, ht, rfl⟩ := hmem
    intro c hc
    exact splitWsChars_wsFree text.data t ht c hc
  · intro hws
    apply wrapAux_all_empty
    intro w hw
    simp only [splitWs, List.mem_map] at hw
    obtain ⟨t, ht, rfl⟩ := hw
    have := splitWsChars_all_ws text.data hws t ht
    simp [this]

/-- Witness for claim C2 at a concrete text, measure and width. -/
theorem claim_C2_wrap_width_witness :
    ("hello" ≠ "" ∧ (charWidth10 "hello" ≤ 60 ∨
      ("hello" ∈ splitWs ("hello world") ∧ ∀ c ∈ "hello".data, isWs c = false)))
    ∧ wrapLines charWidth10 60 ("  \t  ") = [] :=
  ⟨(claim_C2_wrap_width charWidth10 60 ("hello world")).1 "hello" (by decide),
   (claim_C2_wrap_width charWidth10 60 ("  \t  ")).2 (by decide)⟩

/-! ## Claim C3 groundwork: structure of `split(/\s+/)` output

The idempotence proof needs three facts about splitting: a whitespace-free
word splits to itself; splitting distributes over a single whitespace
separator between well-ended pieces; and a trailing separator contributes
exactly one trailing empty field. -/

theorem consHead_append (c : Char) {r₁ : List (List Char)} (r₂ : List (List Char))
    (h : r₁ ≠ []) : consHead c (r₁ ++ r₂) = consHead c r₁ ++ r₂ := by
  cases r₁ with
  | nil => exact absurd rfl h
  | cons t ts => simp [consHead]

theorem splitWsChars_head_cons :
    ∀ (c : Char) (cs : List Char), isWs c = false →
      ∃ t ts, splitWsChars (c :: cs) = (c :: t) :: ts
  | c, [], h => ⟨[], [], by simp [splitWsChars, h]⟩
  | c, c2 :: cs2, h => by
    rcases hr : splitWsChars (c2 :: cs2) with _ | ⟨t, ts⟩
    · exact absurd hr (splitWsChars_ne_nil _)
    · exact ⟨t, ts, by simp [splitWsChars, h, hr, consHead]⟩

theorem splitWsChars_single :
    ∀ l : List Char, l ≠ [] → (∀ c ∈ l, isWs c = false) → splitWsChars l = [l]
  | [], h, _ => absurd rfl h
  | [c], _, hl => by
    have hc : isWs c = false := hl c (List.mem_cons_self _ _)
    simp [splitWsChars, hc]
  | c :: c2 :: cs, _, hl => by
    have hc : isWs c = false := hl c (List.mem_cons_self _ _)
    have ih := splitWsChars_single (c2 :: cs) (by simp)
      (fun d hd => hl d (List.mem_cons_of_mem _ hd))
    simp [splitWsChars, hc, ih, consHead]

theorem splitWsChars_sep (sep : Char) (hsep : isWs sep = true) :
    ∀ (a : List Char) (bc : Char) (bs : List Char), a ≠ [] →
      (∀ c, a.getLast? = some c → isWs c = false) → isWs bc = false →
      splitWsChars (a ++ sep :: bc :: bs) =
        splitWsChars a ++ splitWsChars (bc :: bs)
  | [], _, _, h, _, _ => absurd rfl h
  | [x], bc, bs, _, hlast, hbc => by
    have hx : isWs x = false := hlast x (by simp)
    simp [splitWsChars, hx, hsep, hbc, consHead]
  | x :: y :: a', bc, bs, _, hlast, hbc => by
    have hlast' : ∀ c, (y :: a').getLast? = some c → isWs c = false := by
      intro c hcl
      exact hlast c (by simpa using hcl)
    have ih := splitWsChars_sep sep hsep (y :: a') bc bs (by simp) hlast' hbc
    have hrw : (x :: y :: a') ++ sep :: bc :: bs = x :: (y :: (a' ++ sep :: bc :: bs)) := by
      simp
    rw [hrw]
    cases hx : isWs x
    · have hy : y :: (a' ++ sep :: bc :: bs) = (y :: a') ++ sep :: bc :: bs := by simp
      rw [show splitWsChars (x :: (y :: (a' ++ sep :: bc :: bs)))
            = consHead x (splitWsChars (y :: (a' ++ sep :: bc :: bs))) from by
          simp [splitWsChars, hx], hy, ih,
        consHead_append x _ (splitWsChars_ne_nil _)]
      simp [splitWsChars, hx]
    · cases hy : isWs y
      · have h1 : splitWsChars (x :: (y :: (a' ++ sep :: bc :: bs)))
            = [] :: splitWsChars (y :: (a' ++ sep :: bc :: bs)) := by
          simp [splitWsChars, hx, hy]
        have h2 : splitWsChars (x :: y :: a') = [] :: splitWsChars (y :: a') := by
          simp [splitWsChars, hx, hy]
        rw [h1, show y :: (a' ++ sep :: bc :: bs) = (y :: a') ++ sep :: bc :: bs from by simp,
          ih, h2]
        simp
      · have h1 : splitWsChars (x :: (y :: (a' ++ sep :: bc :: bs)))
            = splitWsChars (y :: (a' ++ sep :: bc :: bs)) := by
          simp [splitWsChars, hx, hy]
        have h2 : splitWsChars (x :: y :: a') = splitWsChars (y :: a') := by
          simp [splitWsChars, hx, hy]
        rw [h1, show y :: (a' ++ sep :: bc :: bs) = (y :: a') ++ sep :: bc :: bs from by simp,
          ih, h2]

theorem splitWsChars_trail (sep : Char) (hsep : isWs sep = true) :
    ∀ a : List Char, a ≠ [] → (∀ c, a.getLast? = some c → isWs c = false) →
      splitWsChars (a ++ [sep]) = splitWsChars a ++ [[]]
  | [], h, _ => absurd rfl h
  | [x], _, hlast => by
    have hx : isWs x = false := hlast x (by simp)
    simp [splitWsChars, hx, hsep, consHead]
  | x :: y :: a', _, hlast => by
    have hlast' : ∀ c, (y :: a').getLast? = some c → isWs c = false := by
      intro c hcl
      exact hlast c (by simpa using hcl)
    have ih := splitWsChars_trail sep hsep (y :: a') (by simp) hlast'
    have hrw : (x :: y :: a') ++ [sep] = x :: (y :: (a' ++ [sep])) := by simp
    rw [hrw]
    cases hx : isWs x
    · rw [show splitWsChars (x :: (y :: (a' ++ [sep])))
            = consHead x (splitWsChars (y :: (a' ++ [sep]))) from by
          simp [splitWsChars, hx],
        show y :: (a' ++ [sep]) = (y :: a') ++ [sep] from by simp, ih,
        consHead_append x _ (splitWsChars_ne_nil _)]
      simp [splitWsChars, hx]
    · cases hy : isWs y
      · have h1 : splitWsChars (x :: (y :: (a' ++ [sep])))
            = [] :: splitWsChars (y :: (a' ++ [sep])) := by
          simp [splitWsChars, hx, hy]
        have h2 : splitWsChars (x :: y :: a') = [] :: splitWsChars (y :: a') := by
          simp [splitWsChars, hx, hy]
        rw [h1, show y :: (a' ++ [sep]) = (y :: a') ++ [sep] from by simp, ih, h2]
        simp
      · have h1 : splitWsChars (x :: (y :: (a' ++ [sep])))
            = splitWsChars (y :: (a' ++ [sep])) := by
          simp [splitWsChars, hx, hy]
        have h2 : splitWsChars (x :: y :: a') = splitWsChars (y :: a') := by
          simp [splitWsChars, hx, hy]
        rw [h1, show y :: (a' ++ [sep]) = (y :: a') ++ [sep] from by simp, ih, h2]

/-! ## Clean token lists and rebuildable buffers -/

/-- A proper word token: nonempty and whitespace-free. -/
def CTokC (t : List Char) : Prop := t ≠ [] ∧ ∀ c ∈ t, isWs c = false

/-- Token lists as produced by `split(/\s+/)` after the leading field:
proper words, except that the final field may be empty. -/
def CToksC : List (List Char) → Prop
  | [] => True
  | [t] => t = [] ∨ CTokC t
  | t :: ts => CTokC t ∧ CToksC ts

theorem cToksC_cons {x : List Char} {r : List (List Char)}
    (hx : CTokC x) (hr : CToksC r) : CToksC (x :: r) := by
  cases r with
  | nil => exact Or.inr hx
  | cons t ts => exact ⟨hx, hr⟩

theorem cToksC_tail {t : List Char} {ts : List (List Char)}
    (h : CToksC (t :: ts)) : CToksC ts := by
  cases ts with
  | nil => trivial
  | cons t2 ts2 => exact h.2

/-- Structure of a full `split(/\s+/)` result: clean, possibly after one
leading empty field. -/
theorem splitWsChars_cleanQ :
    ∀ l : List Char,
      CToksC (splitWsChars l) ∨ ∃ r, splitWsChars l = [] :: r ∧ CToksC r
  | [] => by
    right
    exact ⟨[], by simp [splitWsChars], trivial⟩
  | [c] => by
    cases hc : isWs c
    · left
      simp only [splitWsChars, hc, Bool.false_eq_true, if_false]
      exact Or.inr ⟨by simp, by simp [hc]⟩
    · right
      refine ⟨[[]], by simp [splitWsChars, hc], Or.inl rfl⟩
  | c :: c2 :: cs => by
    have hQ := splitWsChars_cleanQ (c2 :: cs)
    have hfree := splitWsChars_wsFree (c2 :: cs)
    cases hc : isWs c
    · left
      have hrw : splitWsChars (c :: c2 :: cs) = consHead c (splitWsChars (c2 :: cs)) := by
        simp [splitWsChars, hc]
      rcases hr : splitWsChars (c2 :: cs) with _ | ⟨t, ts⟩
      · exact absurd hr (splitWsChars_ne_nil _)
      · rw [hrw, hr]
        have hts : CToksC ts := by
          rcases hQ with hQ | ⟨r, hrr, hcr⟩
          · rw [hr] at hQ
            exact cToksC_tail hQ
          · rw [hr] at hrr
            obtain ⟨ht0, hts0⟩ := List.cons.inj hrr
            subst ht0
            subst hts0
            exact hcr
        have hct : CTokC (c :: t) := by
          refine ⟨by simp, ?_⟩
          intro d hd
          rcases List.mem_cons.mp hd with rfl | hdt
          · exact hc
          · exact hfree t (hr ▸ List.mem_cons_self _ _) d hdt
        simpa [consHead] using cToksC_cons hct hts
    · cases h2 : isWs c2
      · right
        have hrw : splitWsChars (c :: c2 :: cs) = [] :: splitWsChars (c2 :: cs) := by
          simp [splitWsChars, hc, h2]
        obtain ⟨t, ts, hr⟩ := splitWsChars_head_cons c2 cs h2
        refine ⟨splitWsChars (c2 :: cs), hrw, ?_⟩
        rcases hQ with hQ | ⟨r, hrr, _⟩
        · exact hQ
        · rw [hr] at hrr
          exact absurd (List.cons.injEq _ _ _ _ ▸ hrr).1 (by simp)
      · have hrw : splitWsChars (c :: c2 :: cs) = splitWsChars (c2 :: cs) := by
          simp [splitWsChars, hc, h2]
        rw [hrw]
        exact hQ

/-! ## String-level lifting of the clean-token structure -/

theorem mk_data_eq (s : String) : String.mk s.data = s := by
  cases s
  rfl

theorem mk_eq_empty_iff (l : List Char) : String.mk l = "" ↔ l = [] := by
  constructor
  · intro h
    have := congrArg String.data h
    simpa using this
  · intro h
    subst h
    rfl

theorem sep_data : (" " : String).data = [' '] := rfl

theorem nl_data : ("\n" : String).data = ['\n'] := rfl

theorem test_data (a b : String) : (a ++ " " ++ b).data = a.data ++ ' ' :: b.data := by
  simp [String.data_append, sep_data]

theorem append_sep_ne (a b : String) : a ++ " " ++ b ≠ "" := by
  intro h
  have := congrArg String.data h
  rw [test_data] at this
  simp at this

/-- Proper word token, string level. -/
def CTok (t : String) : Prop := t ≠ "" ∧ ∀ c ∈ t.data, isWs c = false

/-- Clean token list, string level: proper words, except that the final
token may be empty. -/
def CToks : List String → Prop
  | [] => True
  | [t] => t = "" ∨ CTok t
  | t :: ts => CTok t ∧ CToks ts

theorem cToks_cons {x : String} {r : List String}
    (hx : CTok x) (hr : CToks r) : CToks (x :: r) := by
  cases r with
  | nil => exact Or.inr hx
  | cons t ts => exact ⟨hx, hr⟩

theorem cToks_tail {t : String} {ts : List String}
    (h : CToks (t :: ts)) : CToks ts := by
  cases ts with
  | nil => trivial
  | cons t2 ts2 => exact h.2

theorem cTok_of_cToksC {t : List Char} (h : CTokC t) : CTok (String.mk t) := by
  refine ⟨?_, ?_⟩
  · rw [Ne, mk_eq_empty_iff]
    exact h.1
  · intro c hc
    exact h.2 c hc

theorem cToks_map_mk : ∀ {r : List (List Char)}, CToksC r → CToks (r.map String.mk)
  | [], _ => trivial
  | [t], h => by
    rcases h with h | h
    · subst h
      exact Or.inl rfl
    · exact Or.inr (cTok_of_cToksC h)
  | t :: t2 :: ts, h =>
    cToks_cons (cTok_of_cToksC h.1) (cToks_map_mk h.2)

/-- A full `split(/\s+/)` output is a clean token list up to a possible
leading empty field. -/
theorem splitWs_clean (s : String) :
    CToks (splitWs s) ∨ ∃ ts, splitWs s = "" :: ts ∧ CToks ts := by
  rcases splitWsChars_cleanQ s.data with h | ⟨r, hr, hcr⟩
  · exact Or.inl (cToks_map_mk h)
  · right
    refine ⟨r.map String.mk, ?_, cToks_map_mk hcr⟩
    rw [splitWs, hr]
    rfl

theorem data_ne_nil {s : String} (h : s ≠ "") : s.data ≠ [] := by
  intro hd
  exact h (by rw [← mk_data_eq s, hd])

/-- `splitWs` of a proper word is that word alone. -/
theorem splitWs_single {w : String} (hw : CTok w) : splitWs w = [w] := by
  rw [splitWs, splitWsChars_single w.data (data_ne_nil hw.1) hw.2]
  simp [mk_data_eq]

/-! ## The rebuild invariant for buffers of the wrapper -/

/-- Replays the `wrapLines` loop on a token list, succeeding (with the
final buffer) only if no flush ever happens. -/
def rebuild (μ : String → Nat) (maxW : Nat) : List String → String → Option String
  | [], line => some line
  | w :: ws, line =>
    let test := if line = "" then w else line ++ " " ++ w
    if maxW < μ test ∧ line ≠ "" then none else rebuild μ maxW ws test

theorem rebuild_append (μ : String → Nat) (maxW : Nat) :
    ∀ (ts us : List String) (line buf : String),
      rebuild μ maxW ts line = some buf →
      rebuild μ maxW (ts ++ us) line = rebuild μ maxW us buf
  | [], us, line, buf, h => by
    simp only [rebuild] at h
    obtain rfl := Option.some.inj h
    rfl
  | w :: ws, us, line, buf, h => by
    simp only [rebuild] at h
    by_cases hc : maxW < μ (if line = "" then w else line ++ " " ++ w) ∧ line ≠ ""
    · rw [if_pos hc] at h
      exact absurd h (by simp)
    · rw [if_neg hc] at h
      have := rebuild_append μ maxW ws us _ buf h
      simp only [List.cons_append, rebuild, if_neg hc]
      exact this

theorem wrapAux_of_rebuild (μ : String → Nat) (maxW : Nat) :
    ∀ (ts us : List String) (line buf : String),
      rebuild μ maxW ts line = some buf →
      wrapAux μ maxW (ts ++ us) line = wrapAux μ maxW us buf
  | [], us, line, buf, h => by
    simp only [rebuild] at h
    obtain rfl := Option.some.inj h
    rfl
  | w :: ws, us, line, buf, h => by
    simp only [rebuild] at h
    by_cases hc : maxW < μ (if line = "" then w else line ++ " " ++ w) ∧ line ≠ ""
    · rw [if_pos hc] at h
      exact absurd h (by simp)
    · rw [if_neg hc] at h
      have := wrapAux_of_rebuild μ maxW ws us _ buf h
      simp only [List.cons_append, wrapAux, if_neg hc]
      exact this

/-- A buffer reachable by the wrapper loop: nonempty, whitespace at
neither end, and rebuildable from its own `split(/\s+/)` fields. -/
def NiceBuf (μ : String → Nat) (maxW : Nat) (buf : String) : Prop :=
  buf ≠ "" ∧ (∀ c, buf.data.head? = some c → isWs c = false)
    ∧ (∀ c, buf.data.getLast? = some c → isWs c = false)
    ∧ rebuild μ maxW (splitWs buf) "" = some buf

theorem rebuild_single (μ : String → Nat) (maxW : Nat) (w : String) :
    rebuild μ maxW [w] "" = some w := by
  simp [rebuild]

theorem niceBuf_of_cTok (μ : String → Nat) (maxW : Nat) {w : String}
    (hw : CTok w) : NiceBuf μ maxW w := by
  refine ⟨hw.1, ?_, ?_, ?_⟩
  · intro c hc
    cases hd : w.data with
    | nil => rw [hd] at hc; exact absurd hc (by simp)
    | cons c0 t =>
      rw [hd] at hc
      obtain rfl := Option.some.inj hc
      exact hw.2 _ (by rw [hd]; exact List.mem_cons_self _ _)
  · intro c hc
    exact hw.2 c (List.mem_of_getLast?_eq_some hc)
  · rw [splitWs_single hw]
    exact rebuild_single μ maxW w

/-! ## Step equations for the wrapper loop -/

theorem wrapAux_nil_empty (μ : String → Nat) (maxW : Nat) :
    wrapAux μ maxW [] "" = [] := by
  simp [wrapAux]

theorem wrapAux_nil_of_ne (μ : String → Nat) (maxW : Nat) {buf : String}
    (h : buf ≠ "") : wrapAux μ maxW [] buf = [buf] := by
  simp [wrapAux, h]

theorem wrapAux_cons_empty (μ : String → Nat) (maxW : Nat) (w : String)
    (ws : List String) : wrapAux μ maxW (w :: ws) "" = wrapAux μ maxW ws w := by
  simp [wrapAux]

theorem wrapAux_cons_push (μ : String → Nat) (maxW : Nat) {buf w : String}
    (ws : List String) (hbuf : buf ≠ "") (h : maxW < μ (buf ++ " " ++ w)) :
    wrapAux μ maxW (w :: ws) buf = buf :: wrapAux μ maxW ws w := by
  simp only [wrapAux, if_neg hbuf]
  rw [if_pos ⟨h, hbuf⟩]

theorem wrapAux_cons_adopt (μ : String → Nat) (maxW : Nat) {buf w : String}
    (ws : List String) (hbuf : buf ≠ "") (h : ¬ maxW < μ (buf ++ " " ++ w)) :
    wrapAux μ maxW (w :: ws) buf = wrapAux μ maxW ws (buf ++ " " ++ w) := by
  simp only [wrapAux, if_neg hbuf]
  rw [if_neg (fun hc => h hc.1)]

theorem rebuild_cons_adopt (μ : String → Nat) (maxW : Nat) {buf w : String}
    (ws : List String) (hbuf : buf ≠ "") (h : ¬ maxW < μ (buf ++ " " ++ w)) :
    rebuild μ maxW (w :: ws) buf = rebuild μ maxW ws (buf ++ " " ++ w) := by
  simp only [rebuild, if_neg hbuf]
  rw [if_neg (fun hc => h hc.1)]

/-- The first emitted line extends the incoming buffer. -/
theorem wrapAux_head (μ : String → Nat) (maxW : Nat) :
    ∀ (ts : List String) (buf : String), buf ≠ "" →
      ∃ (r : String) (L : List String), wrapAux μ maxW ts buf = (buf ++ r) :: L
  | [], buf, h => ⟨"", [], by rw [wrapAux_nil_of_ne μ maxW h, String.append_empty]⟩
  | w :: ws, buf, h => by
    by_cases hlt : maxW < μ (buf ++ " " ++ w)
    · exact ⟨"", wrapAux μ maxW ws w, by
        rw [wrapAux_cons_push μ maxW ws h hlt, String.append_empty]⟩
    · obtain ⟨r', L, hr⟩ := wrapAux_head μ maxW ws (buf ++ " " ++ w) (append_sep_ne buf w)
      refine ⟨" " ++ w ++ r', L, ?_⟩
      rw [wrapAux_cons_adopt μ maxW ws h hlt, hr]
      simp [String.append_assoc]

theorem wrapAux_ne_nil (μ : String → Nat) (maxW : Nat) (ts : List String)
    {buf : String} (h : buf ≠ "") : wrapAux μ maxW ts buf ≠ [] := by
  obtain ⟨r, L, hr⟩ := wrapAux_head μ maxW ts buf h
  rw [hr]
  simp

/-! ## Data of joined line lists -/

theorem joinNL_single (x : String) : joinNL [x] = x := rfl

theorem joinNL_cons (x l2 : String) (ls : List String) :
    joinNL (x :: l2 :: ls) = x ++ "\n" ++ joinNL (l2 :: ls) := rfl

theorem joinNL_head_aux (x : String) (L : List String) :
    ∃ rest : List Char, (joinNL (x :: L)).data = x.data ++ rest := by
  cases L with
  | nil => exact ⟨[], by simp [joinNL_single]⟩
  | cons y ys =>
    exact ⟨'\n' :: (joinNL (y :: ys)).data,
      by simp [joinNL_cons, String.data_append, nl_data]⟩

theorem ne_empty_of_data {s : String} (h : s.data ≠ []) : s ≠ "" := by
  intro he
  rw [he] at h
  exact h rfl

/-! ## `splitWs` over separators, string level -/

theorem splitWs_append_str (sepStr : String) (sep : Char) (hs : sepStr.data = [sep])
    (hsep : isWs sep = true) (a b : String) (ha : a ≠ "")
    (hlast : ∀ c, a.data.getLast? = some c → isWs c = false)
    (hb : b ≠ "") (hhead : ∀ c, b.data.head? = some c → isWs c = false) :
    splitWs (a ++ sepStr ++ b) = splitWs a ++ splitWs b := by
  obtain ⟨bc, bs, hbd⟩ : ∃ bc bs, b.data = bc :: bs := by
    cases hbd : b.data with
    | nil => exact absurd hbd (data_ne_nil hb)
    | cons x xs => exact ⟨x, xs, rfl⟩
  have hbc : isWs bc = false := hhead bc (by rw [hbd]; rfl)
  have hdata : (a ++ sepStr ++ b).data = a.data ++ sep :: bc :: bs := by
    simp [String.data_append, hs, hbd]
  rw [splitWs, hdata,
    splitWsChars_sep sep hsep a.data bc bs (data_ne_nil ha) hlast hbc,
    List.map_append]
  rw [splitWs, splitWs, hbd]

theorem splitWs_append_trail (a : String) (ha : a ≠ "")
    (hlast : ∀ c, a.data.getLast? = some c → isWs c = false) :
    splitWs (a ++ " ") = splitWs a ++ [""] := by
  have hdata : (a ++ " ").data = a.data ++ [' '] := by
    simp [String.data_append, sep_data]
  rw [splitWs, hdata,
    splitWsChars_trail ' ' (by decide) a.data (data_ne_nil ha) hlast,
    List.map_append]
  rfl

/-! ## The rewrap simulation -/

/-- Core of the idempotence proof.  For a nonempty, rebuildable buffer and
a clean token stream, joining the wrapper's output and re-splitting it
yields the buffer's own fields followed by a stream that the wrapper maps
to the same lines. -/
theorem rewrap_main (μ : String → Nat) (maxW : Nat) :
    ∀ (ts : List String) (buf : String), CToks ts → NiceBuf μ maxW buf →
      ∃ ts', splitWs (joinNL (wrapAux μ maxW ts buf)) = splitWs buf ++ ts'
        ∧ wrapAux μ maxW ts' buf = wrapAux μ maxW ts buf
  | [], buf, _, hnice => by
    refine ⟨[], ?_, rfl⟩
    rw [wrapAux_nil_of_ne μ maxW hnice.1, joinNL_single, List.append_nil]
  | w :: ws, buf, hclean, hnice => by
    by_cases hw : w = ""
    · subst hw
      have hws : ws = [] := by
        cases ws with
        | nil => rfl
        | cons a as => exact absurd hclean.1.1 (by simp)
      subst hws
      by_cases hlt : maxW < μ (buf ++ " " ++ "")
      · refine ⟨[], ?_, ?_⟩
        · rw [wrapAux_cons_push μ maxW [] hnice.1 hlt, wrapAux_nil_empty,
            joinNL_single, List.append_nil]
        · rw [wrapAux_nil_of_ne μ maxW hnice.1,
            wrapAux_cons_push μ maxW [] hnice.1 hlt, wrapAux_nil_empty]
      · refine ⟨[""], ?_, rfl⟩
        rw [wrapAux_cons_adopt μ maxW [] hnice.1 hlt, String.append_empty]
        have hne : buf ++ " " ≠ "" := by
          apply ne_empty_of_data
          simp [String.data_append, sep_data]
        rw [wrapAux_nil_of_ne μ maxW hne, joinNL_single]
        exact splitWs_append_trail buf hnice.1 hnice.2.2.1
    · have hctok : CTok w := by
        cases ws with
        | nil => exact hclean.resolve_left hw
        | cons a as => exact hclean.1
      have hcws : CToks ws := cToks_tail hclean
      have hwhead : ∀ c, w.data.head? = some c → isWs c = false := by
        intro c hc
        cases hwd : w.data with
        | nil => rw [hwd] at hc; exact absurd hc (by simp)
        | cons wc wt =>
          rw [hwd, List.head?_cons] at hc
          obtain rfl := Option.some.inj hc
          exact hctok.2 _ (by rw [hwd]; exact List.mem_cons_self _ _)
      by_cases hlt : maxW < μ (buf ++ " " ++ w)
      · obtain ⟨ws', hsplit, hrw⟩ :=
          rewrap_main μ maxW ws w hcws (niceBuf_of_cTok μ maxW hctok)
        rw [splitWs_single hctok] at hsplit
        obtain ⟨r, L, hhead⟩ := wrapAux_head μ maxW ws w hw
        have hjoin := joinNL_head_aux (w ++ r) L
        obtain ⟨rest, hjd⟩ := hjoin
        have hjdata : (joinNL ((w ++ r) :: L)).data = w.data ++ (r.data ++ rest) := by
          rw [hjd]
          simp [String.data_append]
        have hbne : joinNL ((w ++ r) :: L) ≠ "" := by
          apply ne_empty_of_data
          rw [hjdata]
          intro hcon
          exact data_ne_nil hw (List.append_eq_nil.mp hcon).1
        have hbhead : ∀ c, (joinNL ((w ++ r) :: L)).data.head? = some c →
            isWs c = false := by
          intro c hc
          rw [hjdata] at hc
          cases hwd : w.data with
          | nil => exact absurd hwd (data_ne_nil hw)
          | cons wc wt =>
            rw [hwd, List.cons_append, List.head?_cons] at hc
            obtain rfl := Option.some.inj hc
            exact hwhead _ (by rw [hwd]; rfl)
        refine ⟨w :: ws', ?_, ?_⟩
        · rw [wrapAux_cons_push μ maxW ws hnice.1 hlt, hhead, joinNL_cons,
            splitWs_append_str "\n" '\n' rfl (by decide) buf _ hnice.1 hnice.2.2.1
              hbne hbhead, ← hhead, hsplit]
          rfl
        · rw [wrapAux_cons_push μ maxW ws' hnice.1 hlt,
            wrapAux_cons_push μ maxW ws hnice.1 hlt, hrw]
      · have hsw : splitWs (buf ++ " " ++ w) = splitWs buf ++ [w] := by
          have := splitWs_append_str " " ' ' rfl (by decide) buf w hnice.1
            hnice.2.2.1 hw hwhead
          rw [this, splitWs_single hctok]
        have hnicet : NiceBuf μ maxW (buf ++ " " ++ w) := by
          refine ⟨append_sep_ne buf w, ?_, ?_, ?_⟩
          · intro c hc
            rw [test_data] at hc
            cases hbd : buf.data with
            | nil => exact absurd hbd (data_ne_nil hnice.1)
            | cons bc bt =>
              rw [hbd, List.cons_append, List.head?_cons] at hc
              obtain rfl := Option.some.inj hc
              exact hnice.2.1 _ (by rw [hbd]; rfl)
          · intro c hc
            rw [test_data, List.getLast?_append] at hc
            cases hwd : w.data with
            | nil => exact absurd hwd (data_ne_nil hw)
            | cons wc wt =>
              rw [hwd, List.getLast?_cons_cons] at hc
              obtain ⟨d, hd⟩ := Option.isSome_iff_exists.mp
                (List.getLast?_isSome.mpr (by simp : (wc :: wt) ≠ []))
              rw [hd] at hc
              simp only [Option.or_some] at hc
              obtain rfl := Option.some.inj hc
              exact hctok.2 _ (by rw [hwd]; exact List.mem_of_getLast?_eq_some hd)
          · rw [hsw, rebuild_append μ maxW (splitWs buf) [w] "" buf hnice.2.2.2,
              rebuild_cons_adopt μ maxW [] hnice.1 hlt]
            rfl
        obtain ⟨ws', hsplit, hrw⟩ := rewrap_main μ maxW ws (buf ++ " " ++ w) hcws hnicet
        refine ⟨w :: ws', ?_, ?_⟩
        · rw [wrapAux_cons_adopt μ maxW ws hnice.1 hlt, hsplit, hsw]
          simp
        · rw [wrapAux_cons_adopt μ maxW ws' hnice.1 hlt,
            wrapAux_cons_adopt μ maxW ws hnice.1 hlt, hrw]

/-- Re-wrapping the joined output of a wrap over a clean token stream
reproduces the same lines. -/
theorem rewrap_clean (μ : String → Nat) (maxW : Nat) (ts : List String)
    (h : CToks ts) :
    wrapAux μ maxW (splitWs (joinNL (wrapAux μ maxW ts ""))) "" =
      wrapAux μ maxW ts "" := by
  cases ts with
  | nil =>
    rw [wrapAux_nil_empty, show joinNL [] = "" from rfl]
    rw [show splitWs "" = [""] from rfl, wrapAux_cons_empty, wrapAux_nil_empty]
  | cons w ws =>
    by_cases hw : w = ""
    · subst hw
      have hws : ws = [] := by
        cases ws with
        | nil => rfl
        | cons a as => exact absurd h.1.1 (by simp)
      subst hws
      rw [wrapAux_cons_empty, wrapAux_nil_empty, show joinNL [] = "" from rfl]
      rw [show splitWs "" = [""] from rfl, wrapAux_cons_empty, wrapAux_nil_empty]
    · have hctok : CTok w := by
        cases ws with
        | nil => exact h.resolve_left hw
        | cons a as => exact h.1
      obtain ⟨ts', hsplit, hrw⟩ := rewrap_main μ maxW ws w (cToks_tail h)
        (niceBuf_of_cTok μ maxW hctok)
      rw [splitWs_single hctok] at hsplit
      rw [wrapAux_cons_empty, hsplit, show ([w] ++ ts' : List String) = w :: ts' from rfl,
        wrapAux_cons_empty, hrw]

/-- Claim C3: `wrapLines` is idempotent — joining the returned lines with
newline characters and wrapping the result again at the same measure and
width yields exactly the same sequence of lines. -/
theorem claim_C3_wrap_idempotent (μ : String → Nat) (maxW : Nat) (text : String) :
    wrapLines μ maxW (joinNL (wrapLines μ maxW text)) = wrapLines μ maxW text := by
  show wrapAux μ maxW (splitWs (joinNL (wrapAux μ maxW (splitWs text) ""))) "" =
    wrapAux μ maxW (splitWs text) ""
  rcases splitWs_clean text with h | ⟨ts, hts, hclean⟩
  · exact rewrap_clean μ maxW (splitWs text) h
  · rw [hts, wrapAux_cons_empty]
    exact rewrap_clean μ maxW ts hclean

/-! ## Page geometry and drawn-text operations

A drawn text operation records the page it lands on, its position and its
text.  Pages are numbered from 0; `pg + 1` models `doc.addPage(...)`. -/

structure TOp where
  pg : Nat
  x : Int
  y : Int
  text : String
deriving DecidableEq

namespace V1

/-! Embedding of the first version in `src/api/create-pdf.js`:
`PAGE = { width: 595, height: 842 }`, `MARGIN = 56`. -/

def pageHeight : Int := 842

def marginV : Int := 56

/-- `ensureSpace(doc, page, y, needed)` from `src/api/create-pdf.js`
lines 19–25: if `y - needed < MARGIN` a new page is allocated and the
offset resets to `PAGE.height - MARGIN`. -/
def ensureSpace (pg : Nat) (y needed : Int) : Nat × Int :=
  if y - needed < marginV then (pg + 1, pageHeight - marginV) else (pg, y)

/-- The per-line loop of `drawParagraph`: `ensureSpace` before each visual
line, draw at the ensured offset, then advance by `lineHeight`. -/
def drawLinesLoop (size lineGap : Int) : List String → Nat → Int → Nat × Int × List TOp
  | [], pg, y => (pg, y, [])
  | ln :: lns, pg, y =>
    let e := ensureSpace pg y (size + lineGap)
    let rec1 := drawLinesLoop size lineGap lns e.1 (e.2 - (size + lineGap))
    (rec1.1, rec1.2.1, ⟨e.1, marginV, e.2, ln⟩ :: rec1.2.2)

/-- `drawParagraph` from `src/api/create-pdf.js` lines 66–76 (geometry and
draw calls; colors and fonts elided, the font/size measure is `μ`). -/
def drawParagraph (μ : String → Nat) (pg : Nat) (y : Int) (text : String)
    (size lineGap after : Int) (maxWidth : Nat) : Nat × Int × List TOp :=
  let r := drawLinesLoop size lineGap (wrapLines μ maxWidth text) pg y
  (r.1, r.2.1 - after, r.2.2)

theorem drawLinesLoop_bounds (size lineGap : Int) (hpos : 0 ≤ size + lineGap) :
    ∀ (lines : List String) (pg : Nat) (y : Int), y ≤ pageHeight - marginV →
      ∀ op ∈ (drawLinesLoop size lineGap lines pg y).2.2,
        marginV ≤ op.y ∧ op.y ≤ pageHeight - marginV
  | [], _, _ => by intro _ op hop; simp [drawLinesLoop] at hop
  | ln :: lns, pg, y => by
    intro hy op hop
    simp only [drawLinesLoop, List.mem_cons] at hop
    have hbound : marginV ≤ (ensureSpace pg y (size + lineGap)).2
        ∧ (ensureSpace pg y (size + lineGap)).2 ≤ pageHeight - marginV := by
      unfold ensureSpace
      by_cases hre : y - (size + lineGap) < marginV
      · rw [if_pos hre]
        refine ⟨?_, ?_⟩ <;> show _ ≤ _ <;> simp [marginV, pageHeight]
      · rw [if_neg hre]
        simp only [marginV, pageHeight] at hre hy ⊢
        omega
    rcases hop with rfl | hop
    · exact hbound
    · have hy' : (ensureSpace pg y (size + lineGap)).2 - (size + lineGap)
          ≤ pageHeight - marginV := by omega
      exact drawLinesLoop_bounds size lineGap hpos lns _ _ hy' op hop

/-- Claim C1, amended part: in `create-pdf.js`, `ensureSpace` resets as
specified, and `drawParagraph` checks space before each visual line so
every drawn line's vertical position lies between the bottom margin and
the top margin. -/
theorem claim_C1_paragraph_within_margins :
    (∀ (pg : Nat) (y needed : Int), y - needed < marginV →
        ensureSpace pg y needed = (pg + 1, pageHeight - marginV))
    ∧ ∀ (μ : String → Nat) (pg : Nat) (y : Int) (text : String)
        (size lineGap after : Int) (maxWidth : Nat),
        0 ≤ size + lineGap → y ≤ pageHeight - marginV →
        ∀ op ∈ (drawParagraph μ pg y text size lineGap after maxWidth).2.2,
          marginV ≤ op.y ∧ op.y ≤ pageHeight - marginV := by
  constructor
  · intro pg y needed h
    simp [ensureSpace, h]
  · intro μ pg y text size lineGap after maxWidth hpos hy op hop
    exact drawLinesLoop_bounds size lineGap hpos (wrapLines μ maxWidth text) pg y hy op hop

/-- Witness for the amended claim C1 at concrete inputs. -/
theorem claim_C1_paragraph_within_margins_witness :
    marginV ≤ (786 : Int) ∧ (786 : Int) ≤ pageHeight - marginV :=
  have h := (claim_C1_paragraph_within_margins).2 charWidth10 0 786 ("a a") 12 2 14 10
    (by decide) (by decide) ⟨0, 56, 786, "a"⟩ (by decide)
  ⟨h.1, h.2⟩

end V1

namespace P2

/-! Embedding of `src/unnamed/part_002`: `SIZES.p = 12`, `SIZES.shl2 = 14`,
`GAPS.line = 2`, `GAPS.list = 4`, `GAPS.after_shl = 8`,
`GAPS.after_para_to_next_shl = 24`, `MARGIN = 56`, `A4.h = 842`. -/

/-- `ensureSpace(pdf, page, cursor, need, newPageTopY)` from
`src/unnamed/part_002` lines 62–68. -/
def ensureSpace (pg : Nat) (cursor need : Int) : Nat × Int :=
  if cursor - need < 56 then (pg + 1, 842 - 56) else (pg, cursor)

/-- The loop of `drawWrappedText` (`src/unnamed/part_002` lines 52–60):
draws every wrapped line on the same page, decrementing the cursor by
`size + GAPS.line` with no space check. -/
def drawWrappedLoop (pg : Nat) (x size : Int) : List String → Int → Int × List TOp
  | [], cur => (cur, [])
  | ln :: lns, cur =>
    let r := drawWrappedLoop pg x size lns (cur - (size + 2))
    (r.1, ⟨pg, x, cur, ln⟩ :: r.2)

/-- `drawWrappedText(page, font, text, x, y, size, maxWidth)` from
`src/unnamed/part_002` lines 52–60. -/
def drawWrappedText (μ : String → Nat) (pg : Nat) (text : String)
    (x y size : Int) (maxW : Nat) : Int × List TOp :=
  drawWrappedLoop pg x size (wrapLines μ maxW text) y

/-- The per-item loop of `drawGroup` inside `renderTriggerSection`
(`src/unnamed/part_002` lines 156–159): each extracted list line is drawn
with `drawWrappedText` followed by the `GAPS.list` gap. -/
def drawGroupLines (μ : String → Nat) (maxW : Nat) (pg : Nat) :
    List String → Int → Int × List TOp
  | [], y => (y, [])
  | ln :: lns, y =>
    let d := drawWrappedText μ pg ln 56 y 12 maxW
    let r := drawGroupLines μ maxW pg lns (d.1 - 4)
    (r.1, d.2 ++ r.2)

/-- `drawGroup(title, lines)` from `renderTriggerSection`
(`src/unnamed/part_002` lines 151–162): one `ensureSpace` for the whole
group with `need = SIZES.shl2 + 5*(SIZES.p + GAPS.list) + 20 = 114`, then
the title and all wrapped lines with no further checks. -/
def drawGroup (μ : String → Nat) (maxW : Nat) (pg : Nat) (y : Int)
    (title : String) (lines : List String) : Nat × Int × List TOp :=
  if lines = [] then (pg, y, [])
  else
    let e := ensureSpace pg y 114
    let d := drawGroupLines μ maxW e.1 lines (e.2 - 22)
    (e.1, d.1 - 24, (⟨e.1, 56, e.2, title⟩ : TOp) :: d.2)

/-- Five list lines that each wrap to twelve visual lines under
`charWidth10` at width 10. -/
def overflowLines : List String :=
  List.replicate 5 ("a a a a a a a a a a a a")

end P2

/-- Claim C1, counterexample: in `src/unnamed/part_002` the space check is
per group, not per visual line — `drawWrappedText` draws wrapped lines
without calling `ensureSpace`, so a trigger group starting at the top of a
fresh page draws lines below the bottom margin (y = 56). -/
theorem claim_C1_counterexample :
    ((P2.drawGroup charWidth10 10 0 786 ("Typische Ängste") P2.overflowLines).2.2.any
      (fun op => op.y < 56)) = true := by
  decide

/-! ## `extractNumberedList` from `src/unnamed/part_002` (lines 79–102) -/

theorem dropWhile_len_le {α : Type} (p : α → Bool) :
    ∀ l : List α, (l.dropWhile p).length ≤ l.length
  | [] => le_refl _
  | c :: cs => by
    rw [List.dropWhile_cons]
    by_cases h : p c
    · simp only [h, if_true]
      exact le_trans (dropWhile_len_le p cs) (by simp)
    · simp [h]

namespace P2

/-- Helper for `collapseWs`: the flag records whether the previous
character belonged to a whitespace run already emitted as one space. -/
def collapseWsAux : Bool → List Char → List Char
  | _, [] => []
  | inRun, c :: cs =>
    if isWs c then
      (if inRun then collapseWsAux true cs else ' ' :: collapseWsAux true cs)
    else c :: collapseWsAux false cs

/-- `.replace(/\s+/g, " ")`: collapse every whitespace run to one space. -/
def collapseWs (l : List Char) : List Char := collapseWsAux false l

/-- The lookahead `(?=\d+\.\s)`: digits, a dot, then one whitespace. -/
def numLookahead (l : List Char) : Bool :=
  let ds := l.takeWhile Char.isDigit
  !ds.isEmpty && (match l.drop ds.length with
    | '.' :: c :: _ => isWs c
    | _ => false)

/-- `txt.split(/\s(?=\d+\.\s)/g)`: split at single whitespace characters
immediately followed by the start of a numbered item. -/
def splitNumSep : List Char → List (List Char)
  | [] => [[]]
  | c :: cs =>
    if isWs c && numLookahead cs then [] :: splitNumSep cs
    else consHead c (splitNumSep cs)

/-- A digit run to a number (`parseInt(m[1], 10)`). -/
def digitsToNat (ds : List Char) : Nat :=
  ds.foldl (fun n c => n * 10 + (c.toNat - '0'.toNat)) 0

/-- `part.match(/^(\d+)\.\s*(.*)$/)`, returning the number and the
trimmed remainder text. -/
def parseNumPart (l : List Char) : Option (Nat × List Char) :=
  let ds := l.takeWhile Char.isDigit
  if ds.isEmpty then none
  else
    match l.drop ds.length with
    | '.' :: rest => some (digitsToNat ds, trimChars (rest.dropWhile isWs))
    | _ => none

structure NumEntry where
  n : Nat
  txt : String
deriving DecidableEq

/-- Stable insertion used to model the stable JS
`items.sort((a, b) => a.n - b.n)`. -/
def insEntry (x : NumEntry) : List NumEntry → List NumEntry
  | [] => [x]
  | y :: ys => if x.n ≤ y.n then x :: y :: ys else y :: insEntry x ys

def sortByN (l : List NumEntry) : List NumEntry := l.foldr insEntry []

/-- The collected entries of `extractNumberedList`, before sorting:
parsed pairs with `1 ≤ n ≤ 5` and nonempty text. -/
def numEntries (block : String) : List NumEntry :=
  let txt := trimChars (collapseWs (block.data.filter (fun c => c ≠ '\r')))
  let parts := (splitNumSep txt).filter (fun p => !p.isEmpty)
  parts.filterMap (fun p =>
    (parseNumPart p).bind (fun q =>
      if 1 ≤ q.1 ∧ q.1 ≤ 5 ∧ q.2 ≠ [] then some ⟨q.1, String.mk q.2⟩ else none))

/-- The sorted entries (`items.sort((a, b) => a.n - b.n)`). -/
def sortedNumEntries (block : String) : List NumEntry := sortByN (numEntries block)

/-- `extractNumberedList(block)` from `src/unnamed/part_002` lines
79–102: collapse whitespace, split before numbered markers, keep numbers
1–5 with nonempty text, sort by number, keep at most five and re-emit
each as `"<n>. <text>"` with the original input number. -/
def extractNumberedList (block : String) : List String :=
  ((sortedNumEntries block).take 5).map (fun x => toString x.n ++ ". " ++ x.txt)

theorem insEntry_mem {b x : NumEntry} :
    ∀ {l : List NumEntry}, b ∈ insEntry x l ↔ b = x ∨ b ∈ l
  | [] => by simp [insEntry]
  | y :: ys => by
    rw [insEntry]
    by_cases h : x.n ≤ y.n
    · rw [if_pos h]
      simp
    · rw [if_neg h]
      simp only [List.mem_cons, insEntry_mem (l := ys)]
      tauto

theorem sortByN_mem {b : NumEntry} :
    ∀ {l : List NumEntry}, b ∈ sortByN l ↔ b ∈ l
  | [] => by simp [sortByN]
  | y :: ys => by
    show b ∈ insEntry y (sortByN ys) ↔ _
    rw [insEntry_mem, sortByN_mem (l := ys)]
    simp

theorem insEntry_sorted {x : NumEntry} :
    ∀ {l : List NumEntry}, List.Sorted (fun a b : NumEntry => a.n ≤ b.n) l →
      List.Sorted (fun a b : NumEntry => a.n ≤ b.n) (insEntry x l)
  | [], _ => List.sorted_singleton _
  | y :: ys, h => by
    rw [insEntry]
    rcases List.sorted_cons.mp h with ⟨hy, hys⟩
    by_cases hxy : x.n ≤ y.n
    · rw [if_pos hxy]
      refine List.sorted_cons.mpr ⟨?_, h⟩
      intro b hb
      rcases List.mem_cons.mp hb with rfl | hb
      · exact hxy
      · exact le_trans hxy (hy b hb)
    · rw [if_neg hxy]
      refine List.sorted_cons.mpr ⟨?_, insEntry_sorted hys⟩
      intro b hb
      rcases insEntry_mem.mp hb with rfl | hb
      · exact le_of_lt (Nat.lt_of_not_le hxy)
      · exact hy b hb

theorem sortByN_sorted :
    ∀ l : List NumEntry, List.Sorted (fun a b : NumEntry => a.n ≤ b.n) (sortByN l)
  | [] => List.sorted_nil
  | _ :: ys => insEntry_sorted (sortByN_sorted ys)

end P2

/-- Claim C4 (part): `extractNumberedList` emits at most five items. -/
theorem extractNumberedList_le_five (block : String) :
    (P2.extractNumberedList block).length ≤ 5 := by
  rw [P2.extractNumberedList, List.length_map, List.length_take]
  exact min_le_left _ _

namespace V1

/-! ## `drawNumberedList` from `src/api/create-pdf.js` (lines 78–106) -/

/-- Continuation lines of one list item, drawn at the hanging indent
`MARGIN + numberIndent` with a space check per visual line. -/
def drawNumItemLines (size lineGap : Int) (numberIndent : Nat) :
    List String → Nat → Int → Nat × Int × List TOp
  | [], pg, y => (pg, y, [])
  | ln :: lns, pg, y =>
    let e := ensureSpace pg y (size + lineGap)
    let r := drawNumItemLines size lineGap numberIndent lns e.1 (e.2 - (size + lineGap))
    (r.1, r.2.1, ⟨e.1, marginV + (numberIndent : Int), e.2, ln⟩ :: r.2.2)

/-- The item loop of `drawNumberedList`: `idx` starts at 0 and the prefix
drawn is `"${idx + 1}. "`, re-derived from the position, never from the
item's text. -/
def drawNumLoop (μ : String → Nat) (size lineGap : Int) (maxWidth numberIndent : Nat) :
    List String → Nat → Nat → Int → Nat × Int × List TOp
  | [], _, pg, y => (pg, y, [])
  | raw :: rest, idx, pg, y =>
    let lines := wrapLines μ (maxWidth - numberIndent) raw
    let e := ensureSpace pg y (size + lineGap)
    let pOp : TOp := ⟨e.1, marginV, e.2, toString (idx + 1) ++ ". "⟩
    let fOp : TOp := ⟨e.1, marginV + (numberIndent : Int), e.2, lines.headD ""⟩
    let r1 := drawNumItemLines size lineGap numberIndent lines.tail e.1
      (e.2 - (size + lineGap))
    let r2 := drawNumLoop μ size lineGap maxWidth numberIndent rest (idx + 1) r1.1 r1.2.1
    (r2.1, r2.2.1, pOp :: fOp :: (r1.2.2 ++ r2.2.2))

/-- `drawNumberedList` from `src/api/create-pdf.js` lines 78–106. -/
def drawNumberedList (μ : String → Nat) (pg : Nat) (y : Int) (items : List String)
    (size lineGap after : Int) (maxWidth numberIndent : Nat) : Nat × Int × List TOp :=
  let r := drawNumLoop μ size lineGap maxWidth numberIndent items 0 pg y
  (r.1, r.2.1 - after, r.2.2)

theorem drawNumItemLines_x (size lineGap : Int) (numberIndent : Nat) :
    ∀ (lns : List String) (pg : Nat) (y : Int),
      ∀ op ∈ (drawNumItemLines size lineGap numberIndent lns pg y).2.2,
        op.x = marginV + (numberIndent : Int)
  | [], _, _ => by intro op hop; simp [drawNumItemLines] at hop
  | ln :: lns, pg, y => by
    intro op hop
    simp only [drawNumItemLines, List.mem_cons] at hop
    rcases hop with rfl | hop
    · rfl
    · exact drawNumItemLines_x size lineGap numberIndent lns _ _ op hop

theorem drawNumLoop_prefix_texts (μ : String → Nat) (size lineGap : Int)
    (maxWidth numberIndent : Nat) (hind : 0 < numberIndent) :
    ∀ (items : List String) (idx pg : Nat) (y : Int),
      (((drawNumLoop μ size lineGap maxWidth numberIndent items idx pg y).2.2.filter
          (fun op => op.x = marginV)).map TOp.text)
        = (List.range items.length).map (fun i => toString (idx + 1 + i) ++ ". ")
  | [], _, _, _ => by simp [drawNumLoop]
  | raw :: rest, idx, pg, y => by
    have hne : marginV + (numberIndent : Int) ≠ marginV := by
      simp only [marginV]
      omega
    simp only [drawNumLoop, List.filter_cons, List.filter_append]
    rw [if_pos (by simp), if_neg (by simpa using hne)]
    have hcont : ((drawNumItemLines size lineGap numberIndent
        (wrapLines μ (maxWidth - numberIndent) raw).tail
        (ensureSpace pg y (size + lineGap)).1
          ((ensureSpace pg y (size + lineGap)).2 - (size + lineGap))).2.2.filter
        (fun op => op.x = marginV)) = [] := by
      rw [List.filter_eq_nil_iff]
      intro op hop
      have := drawNumItemLines_x size lineGap numberIndent _ _ _ op hop
      simpa [this] using hne
    rw [hcont]
    simp only [List.nil_append, List.map_cons]
    rw [drawNumLoop_prefix_texts μ size lineGap maxWidth numberIndent hind rest (idx + 1)]
    simp only [List.length_cons, List.range_succ_eq_map, List.map_cons, List.map_map]
    refine congrArg₂ _ (by simp) ?_
    apply List.map_congr_left
    intro i _
    simp only [Function.comp_apply]
    congr 2
    omega

/-- Claim C9, amended: in `create-pdf.js`, `drawNumberedList` re-derives
the rendered numbering as `1..N` from item positions (the prefix texts
drawn at the left margin are exactly `"1. " .. "N. "` in input order),
while in `part_002`, `extractNumberedList` sorts items by their embedded
input numbers and re-emits those numbers verbatim in the output lines. -/
theorem claim_C9_numbering :
    (∀ (μ : String → Nat) (pg : Nat) (y : Int) (items : List String)
        (size lineGap after : Int) (maxWidth numberIndent : Nat),
        0 < numberIndent →
        (((drawNumberedList μ pg y items size lineGap after
            maxWidth numberIndent).2.2.filter (fun op => op.x = marginV)).map TOp.text)
          = (List.range items.length).map (fun i => toString (i + 1) ++ ". "))
    ∧ (∀ block : String,
        List.Sorted (fun a b : P2.NumEntry => a.n ≤ b.n) (P2.sortedNumEntries block))
    ∧ (∀ (block : String) (l : String), l ∈ P2.extractNumberedList block →
        ∃ e ∈ P2.numEntries block, l = toString e.n ++ ". " ++ e.txt) := by
  refine ⟨?_, ?_, ?_⟩
  · intro μ pg y items size lineGap after maxWidth numberIndent hind
    refine (drawNumLoop_prefix_texts μ size lineGap maxWidth numberIndent
      hind items 0 pg y).trans ?_
    apply List.map_congr_left
    intro i _
    congr 2
    omega
  · intro block
    exact P2.sortByN_sorted _
  · intro block l hl
    rw [P2.extractNumberedList] at hl
    obtain ⟨e, he, rfl⟩ := List.mem_map.mp hl
    exact ⟨e, P2.sortByN_mem.mp (List.mem_of_mem_take he), rfl⟩

/-- Witness for the amended claim C9 at concrete inputs. -/
theorem claim_C9_numbering_witness :
    ((((drawNumberedList charWidth10 0 786 ["x", "y"] 12 2 16 100 18).2.2.filter
        (fun op => op.x = marginV)).map TOp.text) = ["1. ", "2. "])
    ∧ ∃ e ∈ P2.numEntries ("1. A\n3. B"), "3. B" = toString e.n ++ ". " ++ e.txt := by
  constructor
  · rw [claim_C9_numbering.1 charWidth10 0 786 (["x", "y"]) 12 2 16 100 18 (by decide)]
    rfl
  · refine claim_C9_numbering.2.2 ("1. A\n3. B") "3. B" ?_
    rw [show P2.extractNumberedList ("1. A\n3. B") = ["1. A", "3. B"] from by decide]
    simp

end V1

/-- Claim C9, counterexample: `extractNumberedList` neither preserves the
input order of items (it sorts `"2. B"` before `"1. A"`) nor re-derives
the numbering (sparse input `1., 3.` is emitted as `1., 3.`, not
`1., 2.`). -/
theorem claim_C9_counterexample :
    P2.extractNumberedList ("2. B\n1. A") = ["1. A", "2. B"]
    ∧ P2.extractNumberedList ("2. B\n1. A") ≠ ["2. B", "1. A"]
    ∧ P2.extractNumberedList ("1. A\n3. B") = ["1. A", "3. B"] := by
  refine ⟨by decide, by decide, by decide⟩

namespace P3

/-! ## Embedding of `src/unnamed/part_003`: example normalization, the
nested-list (benefits) parser and the trigger parser. -/

/-- `.replace(/^[-–]\s+/, "")`: strip a leading dash bullet followed by
whitespace (the whitespace run is consumed greedily). -/
def stripLeadDash (l : List Char) : List Char :=
  match l with
  | c :: c2 :: rest =>
    if (c = '-' ∨ c = '–') ∧ isWs c2 then (c2 :: rest).dropWhile isWs else l
  | _ => l

/-- `.replace(/^["„]/, "")`: strip one leading quotation mark. -/
def stripLeadQuote (l : List Char) : List Char :=
  match l with
  | c :: rest => if c = '"' ∨ c = '„' then rest else l
  | [] => []

/-- `.replace(/["“”]$/, "")`: strip one trailing quotation mark. -/
def stripTrailQuote (l : List Char) : List Char :=
  match l.getLast? with
  | some c => if c = '"' ∨ c = '“' ∨ c = '”' then l.dropLast else l
  | none => l

/-- Continuation of `stripTitleDash` after the title has matched: expect
a dash (after optional whitespace, already dropped) and strip through the
following whitespace; on failure return the original string. -/
def dashThen (s orig : List Char) : List Char :=
  match s with
  | c :: rest => if c = '–' ∨ c = '-' then rest.dropWhile isWs else orig
  | [] => orig

/-- The dynamically built regex `^\s*${esc(title)}\s*[–-]\s*` with the `i`
flag: optional whitespace, the title literally (case-insensitively), then
a dash with optional whitespace around it. -/
def stripTitleDash (title : List Char) (s : List Char) : List Char :=
  match matchCI title (s.dropWhile isWs) with
  | some r1 => dashThen (r1.dropWhile isWs) s
  | none => s

/-- `normalizeExample(ex, title)` from `src/unnamed/part_003` lines
115–122: strip a leading bullet/dash marker, strip wrapping quotation
marks, strip a redundant case-insensitive `"<title> – "` prefix, then
trim. -/
def normalizeExample (ex : String) (title : String) : String :=
  let s1 := stripLeadDash ex.data
  let s2 := stripTrailQuote (stripLeadQuote s1)
  let s3 := stripTitleDash title.data s2
  String.mk (trimChars s3)

/-- `line.match(/^(\d+)\.\s+(.+)$/)`: the text after the number prefix
of a numbered line (`m[2]`). -/
def numLineRest (l : List Char) : Option (List Char) :=
  let ds := l.takeWhile Char.isDigit
  if ds.isEmpty then none
  else
    match l.drop ds.length with
    | '.' :: c :: rest =>
      if isWs c then
        (let r := (c :: rest).dropWhile isWs
         if r.isEmpty then none else some r)
      else none
    | _ => none

/-- A separator match of `/\s+–\s+/` starting at the head of the list:
whitespace run, en-dash, whitespace run; returns the text after it. -/
def sepAt : List Char → Option (List Char)
  | c :: cs =>
    if isWs c then
      (match cs.dropWhile isWs with
       | '–' :: c2 :: rest => if isWs c2 then some ((c2 :: rest).dropWhile isWs) else none
       | _ => none)
    else none
  | [] => none

/-- `String.prototype.split(/\s+–\s+/)`, fuelled by the input length so
that the definition stays structurally recursive (a separator consumes at
least three characters, so the fuel never runs out). -/
def splitDashSepF : Nat → List Char → List (List Char)
  | _, [] => [[]]
  | 0, l => [l]
  | fuel + 1, l@(c :: cs) =>
    match sepAt l with
    | some rest => [] :: splitDashSepF fuel rest
    | none => consHead c (splitDashSepF fuel cs)

def splitDashSep (l : List Char) : List (List Char) := splitDashSepF l.length l

/-- `Array.prototype.join(" – ")`. -/
def joinDash : List (List Char) → List Char
  | [] => []
  | [x] => x
  | x :: xs => x ++ ' ' :: '–' :: ' ' :: joinDash xs

/-- Destructuring of a numbered line in `parseNestedListBlock`
(`src/unnamed/part_003` lines 152–162): the title part and the inline
example text after the first dash separator (empty when there is none). -/
def numTitleEx (line : String) : Option (String × String) :=
  (numLineRest line.data).map (fun m2 =>
    let titlePart := trimChars m2
    match splitDashSep titlePart with
    | t :: e1 :: es => (String.mk (trimChars t), String.mk (trimChars (joinDash (e1 :: es))))
    | _ => (String.mk titlePart, ""))

/-- `/^[-–•]\s+/.test(line)`. -/
def isBulletLine (l : List Char) : Bool :=
  match l with
  | c :: c2 :: _ => (c = '-' ∨ c = '–' ∨ c = '•') ∧ isWs c2
  | _ => false

/-- `line.replace(/^[-–•]\s+/, "")`. -/
def stripBullet (l : List Char) : List Char :=
  match l with
  | c :: c2 :: rest =>
    if (c = '-' ∨ c = '–' ∨ c = '•') ∧ isWs c2 then (c2 :: rest).dropWhile isWs else l
  | _ => l

structure NItem where
  title : String
  examples : List String
deriving DecidableEq

/-- Push an example onto the last entry of the insertion-ordered map
(`Array.from(map.values()).pop().examples.push(ex)`). -/
def pushExampleLast (ex : String) : List (String × NItem) → List (String × NItem)
  | [] => []
  | [(k, it)] => [(k, ⟨it.title, it.examples ++ [ex]⟩)]
  | e :: e2 :: es => e :: pushExampleLast ex (e2 :: es)

/-- Push an example onto the entry with the given key
(`map.get(key).examples.push(ex)`). -/
def pushExampleKey (key : String) (ex : String) :
    List (String × NItem) → List (String × NItem)
  | [] => []
  | (k, it) :: es =>
    if k = key then (k, ⟨it.title, it.examples ++ [ex]⟩) :: es
    else (k, it) :: pushExampleKey key ex es

/-- The numbered-line branch of the collection loop
(`src/unnamed/part_003` lines 152–170): insert the key on first sight
(keeping the position of the first occurrence), then push the normalized
inline example, if any, onto the entry with that key. -/
def nlStepNum (es : List (String × NItem)) (te : String × String) :
    List (String × NItem) :=
  let key := lowerStr te.1
  let es1 := if (es.map Prod.fst).any (fun k => k = key) then es
    else es ++ [(key, ⟨te.1, []⟩)]
  if te.2 ≠ "" then
    (let ex := normalizeExample te.2 te.1
     if ex ≠ "" then pushExampleKey key ex es1 else es1)
  else es1

/-- The bullet-line branch of the collection loop
(`src/unnamed/part_003` lines 173–181): attach the normalized example to
the last entry in insertion order, when one exists. -/
def nlStepBullet (es : List (String × NItem)) (line : String) :
    List (String × NItem) :=
  if isBulletLine line.data ∧ es ≠ [] then
    (let lastTitle := ((es.getLast?).map (fun p => p.2.title)).getD ""
     let ex := normalizeExample (String.mk (stripBullet line.data)) lastTitle
     if ex ≠ "" then pushExampleLast ex es else es)
  else es

/-- One line of the collection loop of `parseNestedListBlock`
(`src/unnamed/part_003` lines 150–182).  The entry list models the
insertion-ordered JS `Map` keyed by the lowercased title. -/
def nlStep (es : List (String × NItem)) (line : String) : List (String × NItem) :=
  match numTitleEx line with
  | some te => nlStepNum es te
  | none => nlStepBullet es line

/-- `/^Typische\s+/i.test(line)`. -/
def isTypischeStart (l : List Char) : Bool :=
  match matchCI ("typische".data) l with
  | some (c :: _) => isWs c
  | _ => false

/-- The pattern `\s*–\s*Beispiele:?` (case-insensitive) matched at the
head of the list, returning the remainder after the match. -/
def beispielePatAt (l : List Char) : Option (List Char) :=
  match l.dropWhile isWs with
  | '–' :: r2 =>
    (match matchCI ("beispiele".data) (r2.dropWhile isWs) with
     | some (':' :: r5) => some r5
     | some r4 => some r4
     | none => none)
  | _ => none

/-- `.replace(/\s*–\s*Beispiele:?/i, "")`: remove the first occurrence. -/
def stripBeispiele : List Char → List Char
  | [] => []
  | l@(c :: cs) =>
    match beispielePatAt l with
    | some rest => rest
    | none => c :: stripBeispiele cs

/-- Case-insensitive global replace, fuelled by the input length (the
pattern is nonempty, so the fuel suffices). -/
def replaceAllCIAux (pat rep : List Char) : Nat → List Char → List Char
  | _, [] => []
  | 0, l => l
  | fuel + 1, l@(c :: cs) =>
    match matchCI pat l with
    | some rest => rep ++ replaceAllCIAux pat rep fuel rest
    | none => c :: replaceAllCIAux pat rep fuel cs

/-- `.replace(/pat/gi, rep)` for a literal pattern. -/
def replaceAllCI (pat rep l : List Char) : List Char :=
  replaceAllCIAux pat rep l.length l

/-- The line preprocessing of `parseNestedListBlock`:
`.replace(/\r/g, "").split("\n").map(trim).filter(Boolean)`. -/
def nestedRawLines (block : String) : List String :=
  ((splitNL (removeCR block)).map strTrim).filter (fun l => l ≠ "")

/-- The header recognition of `parseNestedListBlock` (`src/unnamed/part_003`
lines 139–145): a leading `Typische …` line becomes the header, with
`– Beispiele` removed and `Vorurteile` renamed to `Vorbehalte`. -/
def nestedHeader : List String → String × List String
  | l0 :: rest =>
    if isTypischeStart l0.data then
      (String.mk (replaceAllCI ("vorurteile".data) ("Vorbehalte".data)
        (stripBeispiele l0.data)), rest)
    else ("", l0 :: rest)
  | [] => ("", [])

/-- The insertion-ordered map built by the collection loop of
`parseNestedListBlock`. -/
def nestedEntries (block : String) : List (String × NItem) :=
  (nestedHeader (nestedRawLines block)).2.foldl nlStep []

/-- `parseNestedListBlock(block)` from `src/unnamed/part_003` lines
132–191: split into trimmed nonempty lines, take a `Typische …` header,
collect numbered titles and bullet examples into an insertion-ordered map
merging case-insensitively equal titles, then keep at most 5 items with
at most 2 examples each (`slice(0, 5)` / `slice(0, 2)`). -/
def parseNestedListBlock (block : String) : String × List NItem :=
  ((nestedHeader (nestedRawLines block)).1,
    (((nestedEntries block).map Prod.snd).take 5).map
      (fun it => ⟨it.title, it.examples.take 2⟩))

/-! ## `parseTriggers` from `src/unnamed/part_003` (lines 252–274) -/

inductive TrigCat
  | aengste
  | ziele
  | vorbehalte
deriving DecidableEq

structure TrigBlocks where
  aengste : List String
  ziele : List String
  vorbehalte : List String
deriving DecidableEq

/-- One alternative of the header regex followed by `\s*:?\s*$`. -/
def altEnd (w : String) (l : List Char) : Bool :=
  match matchCI w.data l with
  | some r =>
    (match r.dropWhile isWs with
     | [] => true
     | ':' :: r2 => (r2.dropWhile isWs).isEmpty
     | _ => false)
  | none => false

/-- `/^Typische\s+(Ängste|Ziele|Vorbehalte|Vorurteile)\s*:?\s*$/i`. -/
def isTrigHeader (l : List Char) : Bool :=
  match matchCI ("typische".data) l with
  | some (c :: rest) =>
    isWs c &&
      (let r2 := (c :: rest).dropWhile isWs
       altEnd ("Ängste") r2 || altEnd ("Ziele") r2
         || altEnd ("Vorbehalte") r2 || altEnd ("Vorurteile") r2)
  | _ => false

/-- The category chosen for a recognized header: `/Ängste/i` first, then
`/Ziele/i`, otherwise the `vorbehalte` bucket. -/
def trigCatOf (l : List Char) : TrigCat :=
  if containsCI ("ängste".data) l then .aengste
  else if containsCI ("ziele".data) l then .ziele
  else .vorbehalte

/-- `line.match(/^\s*(\d+)\.\s+(.+)$/)`, returning `m[2]`. -/
def trigNumPayload (l : List Char) : Option (List Char) :=
  numLineRest (l.dropWhile isWs)

def pushCat : TrigCat → String → TrigBlocks → TrigBlocks
  | .aengste, s, b => ⟨b.aengste ++ [s], b.ziele, b.vorbehalte⟩
  | .ziele, s, b => ⟨b.aengste, b.ziele ++ [s], b.vorbehalte⟩
  | .vorbehalte, s, b => ⟨b.aengste, b.ziele, b.vorbehalte ++ [s]⟩

/-- One line of the `parseTriggers` loop. -/
def trigStep (st : TrigBlocks × Option TrigCat) (line : String) :
    TrigBlocks × Option TrigCat :=
  if line = "" then st
  else if isTrigHeader line.data then (st.1, some (trigCatOf line.data))
  else
    match trigNumPayload line.data, st.2 with
    | some payload, some cat =>
      (pushCat cat (String.mk (trimChars payload)) st.1, st.2)
    | _, _ => st

/-- `parseTriggers(rawText)` from `src/unnamed/part_003` lines 252–274. -/
def parseTriggers (rawText : String) : TrigBlocks :=
  (((splitNL (removeCR rawText)).map strTrim).foldl trigStep
    (⟨[], [], []⟩, none)).1

end P3

/-- Demo benefits block exercising the nested-list parser. -/
def cexNestedBlock : String :=
  "Typische Ängste – Beispiele:\n1. Cyberangriff – Demo-A\n2. CYBERANGRIFF – Demo-B\n3. Patientendaten – X"

/-- Claim C4: for every raw input block the outline parser emits at most
5 items per category group and at most 2 examples per item; excess input
is truncated (`slice(0, 5)` / `slice(0, 2)`), and `extractNumberedList`
likewise keeps at most five numbered lines. -/
theorem claim_C4_caps (block : String) :
    (P3.parseNestedListBlock block).2.length ≤ 5
    ∧ (∀ it ∈ (P3.parseNestedListBlock block).2, it.examples.length ≤ 2)
    ∧ (P2.extractNumberedList block).length ≤ 5 := by
  refine ⟨?_, ?_, extractNumberedList_le_five block⟩
  · simp only [P3.parseNestedListBlock, List.length_map, List.length_take]
    exact min_le_left _ _
  · intro it hit
    simp only [P3.parseNestedListBlock, List.mem_map] at hit
    obtain ⟨it0, _, rfl⟩ := hit
    simp only [List.length_take]
    exact min_le_left _ _

/-- Witness for claim C4 at a concrete block. -/
theorem claim_C4_caps_witness :
    (⟨"Cyberangriff", ["Demo-A", "Demo-B"]⟩ : P3.NItem).examples.length ≤ 2 := by
  refine (claim_C4_caps cexNestedBlock).2.1 _ ?_
  rw [show (P3.parseNestedListBlock cexNestedBlock).2
      = [⟨"Cyberangriff", ["Demo-A", "Demo-B"]⟩, ⟨"Patientendaten", ["X"]⟩] from by decide]
  exact List.mem_cons_self _ _

/-! ## Claim C6: normalization of examples -/

theorem dropWhile_idem (p : Char → Bool) (l : List Char) :
    (l.dropWhile p).dropWhile p = l.dropWhile p := by
  induction l with
  | nil => rfl
  | cons c cs ih =>
    rw [List.dropWhile_cons]
    by_cases h : p c
    · simp [h, ih]
    · simp [List.dropWhile_cons, h]

theorem trimChars_dropWs (l : List Char) :
    trimChars (l.dropWhile isWs) = trimChars l := by
  rw [trimChars, trimChars, dropWhile_idem]

theorem matchCI_of_lower :
    ∀ (p t r : List Char), p.map lowerChar = t.map lowerChar →
      matchCI p (t ++ r) = some r
  | [], [], r, _ => rfl
  | [], _ :: _, _, h => by simp at h
  | _ :: _, [], _, h => by simp at h
  | p :: ps, t :: ts, r, h => by
    simp only [List.map_cons, List.cons.injEq] at h
    simp only [List.cons_append, matchCI, h.1, if_pos rfl]
    exact matchCI_of_lower ps ts r h.2

theorem stripTrailQuote_concat (l : List Char) :
    P3.stripTrailQuote (l ++ ['"']) = l := by
  have hg : (l ++ ['"']).getLast? = some '"' := List.getLast?_concat l
  rw [P3.stripTrailQuote, hg]
  show (if ('"' : Char) = '"' ∨ ('"' : Char) = '“' ∨ ('"' : Char) = '”'
      then (l ++ ['"']).dropLast else l ++ ['"']) = l
  rw [if_pos (Or.inl rfl), List.dropLast_concat]

theorem stripTitleDash_eq_of (title s r1 : List Char)
    (hm : matchCI title (s.dropWhile isWs) = some r1) :
    P3.stripTitleDash title s = P3.dashThen (r1.dropWhile isWs) s := by
  rw [P3.stripTitleDash, hm]

/-- Claim C6: an example that arrives as a bullet-marked, quoted text
beginning with its item's title (in any letter case) followed by a dash is
normalized to just the remainder — bullet marker stripped, wrapping
quotation marks stripped, redundant title-dash prefix stripped
case-insensitively, then trimmed — so the title never appears doubled as
both title and example. -/
theorem claim_C6_normalize (title tVar rest : String)
    (hci : tVar.data.map lowerChar = title.data.map lowerChar)
    (hhd : ∀ c, tVar.data.head? = some c → isWs c = false) :
    P3.normalizeExample ("– \"" ++ tVar ++ " – " ++ rest ++ "\"") title
      = strTrim rest := by
  have h0 : ("– \"" ++ tVar ++ " – " ++ rest ++ "\"").data
      = '–' :: ' ' :: '"' :: (tVar.data ++ (' ' :: '–' :: ' ' :: (rest.data ++ ['"']))) := by
    simp [String.data_append]
  have h1 : P3.stripLeadDash
      ('–' :: ' ' :: '"' :: (tVar.data ++ (' ' :: '–' :: ' ' :: (rest.data ++ ['"']))))
      = '"' :: (tVar.data ++ (' ' :: '–' :: ' ' :: (rest.data ++ ['"']))) := by
    rw [P3.stripLeadDash]
    rw [if_pos ⟨Or.inr rfl, by decide⟩]
    rw [List.dropWhile_cons, if_pos (by decide), List.dropWhile_cons,
      if_neg (by decide)]
  have h2 : P3.stripLeadQuote
      ('"' :: (tVar.data ++ (' ' :: '–' :: ' ' :: (rest.data ++ ['"']))))
      = tVar.data ++ (' ' :: '–' :: ' ' :: (rest.data ++ ['"'])) := by
    rw [P3.stripLeadQuote]
    rw [if_pos (Or.inl rfl)]
  have hY : tVar.data ++ (' ' :: '–' :: ' ' :: (rest.data ++ ['"']))
      = (tVar.data ++ (' ' :: '–' :: ' ' :: rest.data)) ++ ['"'] := by
    simp
  have h3 : P3.stripTrailQuote
      (tVar.data ++ (' ' :: '–' :: ' ' :: (rest.data ++ ['"'])))
      = tVar.data ++ (' ' :: '–' :: ' ' :: rest.data) := by
    rw [hY]
    exact stripTrailQuote_concat _
  have h4 : P3.stripTitleDash title.data
      (tVar.data ++ (' ' :: '–' :: ' ' :: rest.data))
      = rest.data.dropWhile isWs := by
    cases htv : tVar.data with
    | cons a0 as =>
      rw [htv] at hci
      have ha0 : isWs a0 = false := hhd a0 (by rw [htv]; rfl)
      have hdw : ((a0 :: as) ++ (' ' :: '–' :: ' ' :: rest.data)).dropWhile isWs
          = (a0 :: as) ++ (' ' :: '–' :: ' ' :: rest.data) := by
        rw [List.cons_append, List.dropWhile_cons, if_neg (by simp [ha0])]
      have hm : matchCI title.data
          (((a0 :: as) ++ (' ' :: '–' :: ' ' :: rest.data)).dropWhile isWs)
          = some (' ' :: '–' :: ' ' :: rest.data) := by
        rw [hdw]
        exact matchCI_of_lower title.data (a0 :: as) _ hci.symm
      rw [stripTitleDash_eq_of _ _ _ hm]
      rw [List.dropWhile_cons, if_pos (by decide), List.dropWhile_cons,
        if_neg (by decide)]
      rw [P3.dashThen, if_pos (Or.inl rfl), List.dropWhile_cons, if_pos (by decide)]
    | nil =>
      rw [htv] at hci
      have htitle : title.data = [] := by
        have h5 : List.map lowerChar title.data = [] := by simpa using hci.symm
        exact List.map_eq_nil_iff.mp h5
      rw [List.nil_append]
      have hm : matchCI title.data ((' ' :: '–' :: ' ' :: rest.data).dropWhile isWs)
          = some ('–' :: ' ' :: rest.data) := by
        rw [htitle, List.dropWhile_cons, if_pos (by decide), List.dropWhile_cons,
          if_neg (by decide)]
        rfl
      rw [stripTitleDash_eq_of _ _ _ hm]
      rw [List.dropWhile_cons, if_neg (by decide)]
      rw [P3.dashThen, if_pos (Or.inl rfl), List.dropWhile_cons, if_pos (by decide)]
  rw [P3.normalizeExample, h0, h1, h2, h3, h4, strTrim, trimChars_dropWs]

/-- Witness for claim C6 at a concrete title (in different letter case)
and remainder. -/
theorem claim_C6_normalize_witness :
    P3.normalizeExample ("– \"CYBERANGRIFF – Demo\"") ("Cyberangriff") = "Demo" := by
  have h := claim_C6_normalize ("Cyberangriff") ("CYBERANGRIFF") ("Demo")
    (by decide) (by decide)
  rw [show ("– \"" ++ "CYBERANGRIFF" ++ " – " ++ "Demo" ++ "\"" : String)
      = "– \"CYBERANGRIFF – Demo\"" from by decide] at h
  rw [h]
  decide


/-! ## Claim C10: case-insensitive merging in `parseNestedListBlock` -/

namespace P3

theorem nlStep_eq_num {line : String} {te : String × String}
    (hte : numTitleEx line = some te) (es : List (String × NItem)) :
    nlStep es line = nlStepNum es te := by
  rw [nlStep, hte]

theorem pushExampleKey_fst (key ex : String) :
    ∀ es : List (String × NItem),
      (pushExampleKey key ex es).map Prod.fst = es.map Prod.fst
  | [] => rfl
  | (k, it) :: es => by
    rw [pushExampleKey]
    by_cases h : k = key
    · rw [if_pos h]
      simp
    · rw [if_neg h]
      simp [pushExampleKey_fst key ex es]

theorem pushExampleKey_title (key ex : String) :
    ∀ es : List (String × NItem),
      (pushExampleKey key ex es).map (fun e => e.2.title)
        = es.map (fun e => e.2.title)
  | [] => rfl
  | (k, it) :: es => by
    rw [pushExampleKey]
    by_cases h : k = key
    · rw [if_pos h]
      simp
    · rw [if_neg h]
      simp [pushExampleKey_title key ex es]

theorem pushExampleKey_shape (key ex : String) :
    ∀ es : List (String × NItem), ∀ e' ∈ pushExampleKey key ex es,
      ∃ e ∈ es, e'.1 = e.1 ∧ e'.2.title = e.2.title
  | [] => by intro e' h; simp [pushExampleKey] at h
  | (k, it) :: es => by
    intro e' h
    rw [pushExampleKey] at h
    by_cases hk : k = key
    · rw [if_pos hk] at h
      rcases List.mem_cons.mp h with rfl | h
      · exact ⟨(k, it), List.mem_cons_self _ _, rfl, rfl⟩
      · exact ⟨e', List.mem_cons_of_mem _ h, rfl, rfl⟩
    · rw [if_neg hk] at h
      rcases List.mem_cons.mp h with rfl | h
      · exact ⟨(k, it), List.mem_cons_self _ _, rfl, rfl⟩
      · obtain ⟨e, he, h1, h2⟩ := pushExampleKey_shape key ex es e' h
        exact ⟨e, List.mem_cons_of_mem _ he, h1, h2⟩

theorem pushExampleLast_fst (ex : String) :
    ∀ es : List (String × NItem),
      (pushExampleLast ex es).map Prod.fst = es.map Prod.fst
  | [] => rfl
  | [(k, it)] => rfl
  | (k, it) :: e2 :: es => by
    rw [pushExampleLast]
    simp [pushExampleLast_fst ex (e2 :: es)]

theorem pushExampleLast_shape (ex : String) :
    ∀ es : List (String × NItem), ∀ e' ∈ pushExampleLast ex es,
      ∃ e ∈ es, e'.1 = e.1 ∧ e'.2.title = e.2.title
  | [] => by intro e' h; simp [pushExampleLast] at h
  | [(k, it)] => by
    intro e' h
    simp only [pushExampleLast, List.mem_singleton] at h
    subst h
    exact ⟨(k, it), List.mem_singleton.mpr rfl, rfl, rfl⟩
  | (k, it) :: e2 :: es => by
    intro e' h
    rw [pushExampleLast] at h
    rcases List.mem_cons.mp h with rfl | h
    · exact ⟨(k, it), List.mem_cons_self _ _, rfl, rfl⟩
    · obtain ⟨e, he, h1, h2⟩ := pushExampleLast_shape ex (e2 :: es) e' h
      exact ⟨e, List.mem_cons_of_mem _ he, h1, h2⟩

/-- Invariant of the insertion-ordered map: keys are pairwise distinct
and each key is the lowercased title of its item. -/
def GoodEntries (es : List (String × NItem)) : Prop :=
  ((es.map Prod.fst).Pairwise (· ≠ ·)) ∧ ∀ e ∈ es, e.1 = lowerStr e.2.title

theorem goodEntries_of_maps {es es' : List (String × NItem)}
    (h : GoodEntries es)
    (hfst : es'.map Prod.fst = es.map Prod.fst)
    (hshape : ∀ e' ∈ es', ∃ e ∈ es, e'.1 = e.1 ∧ e'.2.title = e.2.title) :
    GoodEntries es' := by
  constructor
  · rw [hfst]
    exact h.1
  · intro e' he'
    obtain ⟨e, he, h1, h2⟩ := hshape e' he'
    rw [h1, h2]
    exact h.2 e he

theorem goodEntries_append {es : List (String × NItem)} {key : String} {it : NItem}
    (h : GoodEntries es) (hkey : key = lowerStr it.title)
    (hany : ((es.map Prod.fst).any (fun k => k = key)) = false) :
    GoodEntries (es ++ [(key, it)]) := by
  constructor
  · rw [List.map_append, List.pairwise_append]
    refine ⟨h.1, by simp, ?_⟩
    intro a ha b hb
    simp only [List.map_cons, List.map_nil, List.mem_singleton] at hb
    intro heq
    rw [List.any_eq_false] at hany
    have h2 := hany a ha
    simp only [decide_eq_true_eq] at h2
    exact h2 (heq.trans hb)
  · intro e he
    rcases List.mem_append.mp he with he | he
    · exact h.2 e he
    · simp only [List.mem_singleton] at he
      subst he
      exact hkey

theorem nlStepNum_good {es : List (String × NItem)} (te : String × String)
    (h : GoodEntries es) : GoodEntries (nlStepNum es te) := by
  rw [nlStepNum]
  have hes1 : GoodEntries
      (if (es.map Prod.fst).any (fun k => k = lowerStr te.1) then es
       else es ++ [(lowerStr te.1, ⟨te.1, []⟩)]) := by
    cases hany : (es.map Prod.fst).any (fun k => k = lowerStr te.1)
    · rw [if_neg (by simp [hany])]
      exact goodEntries_append h rfl hany
    · rw [if_pos (by simp [hany])]
      exact h
  by_cases hfe : te.2 ≠ ""
  · rw [if_pos hfe]
    by_cases hex : normalizeExample te.2 te.1 ≠ ""
    · rw [if_pos hex]
      exact goodEntries_of_maps hes1 (pushExampleKey_fst _ _ _)
        (pushExampleKey_shape _ _ _)
    · rw [if_neg hex]
      exact hes1
  · rw [if_neg hfe]
    exact hes1

theorem nlStepBullet_good {es : List (String × NItem)} (line : String)
    (h : GoodEntries es) : GoodEntries (nlStepBullet es line) := by
  rw [nlStepBullet]
  by_cases hb : isBulletLine line.data ∧ es ≠ []
  · rw [if_pos hb]
    by_cases hex : normalizeExample (String.mk (stripBullet line.data))
        (((es.getLast?).map (fun p => p.2.title)).getD "") ≠ ""
    · rw [if_pos hex]
      exact goodEntries_of_maps h (pushExampleLast_fst _ _) (pushExampleLast_shape _ _)
    · rw [if_neg hex]
      exact h
  · rw [if_neg hb]
    exact h

theorem nlStep_good (line : String) {es : List (String × NItem)}
    (h : GoodEntries es) : GoodEntries (nlStep es line) := by
  rw [nlStep]
  cases numTitleEx line with
  | some te => exact nlStepNum_good te h
  | none => exact nlStepBullet_good line h

theorem foldl_nlStep_good (lines : List String) :
    ∀ {es : List (String × NItem)}, GoodEntries es →
      GoodEntries (lines.foldl nlStep es) := by
  induction lines with
  | nil => intro es h; exact h
  | cons l ls ih =>
    intro es h
    exact ih (nlStep_good l h)

theorem nestedEntries_good (block : String) : GoodEntries (nestedEntries block) :=
  foldl_nlStep_good _ ⟨List.Pairwise.nil, by simp⟩

/-- `pushExampleKey` reaches a freshly appended entry, leaving the prefix
untouched, when its key occurs nowhere in the prefix. -/
theorem pushExampleKey_append_last (key ex : String) (it : NItem) :
    ∀ es : List (String × NItem),
      ((es.map Prod.fst).any (fun k => k = key)) = false →
      pushExampleKey key ex (es ++ [(key, it)])
        = es ++ [(key, ⟨it.title, it.examples ++ [ex]⟩)]
  | [], _ => by simp [pushExampleKey]
  | (k, it2) :: es, hany => by
    have hk : ¬ k = key := by
      intro heq
      rw [List.any_eq_false] at hany
      exact absurd (by simp [heq] : decide (k = key) = true)
        (by simpa using hany k (by simp))
    rw [List.cons_append, pushExampleKey, if_neg hk,
      pushExampleKey_append_last key ex it es (by
        rw [List.any_eq_false] at hany ⊢
        intro a ha
        exact hany a (by simp [ha]))]
    rfl

end P3
namespace P3

/-- `pushExampleKey` updates the entry carrying its key in place, leaving
every other entry untouched, when the key occurs nowhere in the front
part of the list. -/
theorem pushExampleKey_mid (key ex : String) (it : NItem)
    (es2 : List (String × NItem)) :
    ∀ es1 : List (String × NItem),
      ((es1.map Prod.fst).any (fun k => k = key)) = false →
      pushExampleKey key ex (es1 ++ (key, it) :: es2)
        = es1 ++ (key, ⟨it.title, it.examples ++ [ex]⟩) :: es2
  | [], _ => by simp [pushExampleKey]
  | (k, it2) :: es1, hany => by
    have hk : ¬ k = key := by
      intro heq
      rw [List.any_eq_false] at hany
      have h2 := hany k (by simp)
      simp only [decide_eq_true_eq] at h2
      exact h2 heq
    rw [List.cons_append, pushExampleKey, if_neg hk,
      pushExampleKey_mid key ex it es2 es1 (by
        rw [List.any_eq_false] at hany ⊢
        intro a ha
        exact hany a (by simp [ha]))]
    rfl

end P3

/-- Claim C10: in the benefits/nested-list parser, two numbered lines
whose titles are equal case-insensitively are merged into a single item
that keeps the position of the first occurrence and accumulates both
lines' examples in encounter order, while distinct titles always produce
separate items: (i) the lowercased titles of the parsed items are
pairwise distinct for every block; (ii) a numbered line whose lowercased
title matches the key of an existing entry updates that entry in place,
appending its normalized example after the ones already collected;
(iii) a numbered line with a fresh title appends a separate new item at
the end; (iv) on the demo block the two `Cyberangriff` lines merge into
one item holding both examples in encounter order. -/
theorem claim_C10_ci_merge :
    (∀ block : String,
        (((P3.parseNestedListBlock block).2).map
          (fun it => lowerStr it.title)).Pairwise (· ≠ ·))
    ∧ (∀ (line : String) (te : String × String) (it : P3.NItem)
          (es1 es2 : List (String × P3.NItem)),
        P3.numTitleEx line = some te →
        ((es1.map Prod.fst).any (fun k => k = lowerStr te.1)) = false →
        te.2 ≠ "" →
        P3.normalizeExample te.2 te.1 ≠ "" →
        P3.nlStep (es1 ++ (lowerStr te.1, it) :: es2) line
          = es1 ++ (lowerStr te.1,
              ⟨it.title, it.examples ++ [P3.normalizeExample te.2 te.1]⟩) :: es2)
    ∧ (∀ (line : String) (te : String × String)
          (es : List (String × P3.NItem)),
        P3.numTitleEx line = some te →
        ((es.map Prod.fst).any (fun k => k = lowerStr te.1)) = false →
        ∃ exs : List String,
          (exs = [] ∨ exs = [P3.normalizeExample te.2 te.1])
          ∧ P3.nlStep es line = es ++ [(lowerStr te.1, ⟨te.1, exs⟩)])
    ∧ P3.parseNestedListBlock cexNestedBlock
        = ("Typische Ängste",
           [⟨"Cyberangriff", ["Demo-A", "Demo-B"]⟩, ⟨"Patientendaten", ["X"]⟩]) := by
  refine ⟨?_, ?_, ?_, by decide⟩
  · intro block
    have h := P3.nestedEntries_good block
    have hmap : ((P3.parseNestedListBlock block).2).map (fun it => lowerStr it.title)
        = ((P3.nestedEntries block).map Prod.fst).take 5 := by
      simp only [P3.parseNestedListBlock, List.map_map, List.map_take]
      congr 1
      apply List.map_congr_left
      intro e he
      exact (h.2 e he).symm
    rw [hmap]
    exact h.1.sublist (List.take_sublist _ _)
  · intro line te it es1 es2 hte h1 hne hex
    have htrue : (((es1 ++ (lowerStr te.1, it) :: es2).map Prod.fst).any
        (fun k => k = lowerStr te.1)) = true := by
      rw [List.any_eq_true]
      exact ⟨lowerStr te.1, by simp, by simp⟩
    rw [P3.nlStep_eq_num hte, P3.nlStepNum]
    rw [if_pos htrue]
    rw [if_pos hne]
    rw [if_pos hex]
    exact P3.pushExampleKey_mid _ _ it es2 es1 h1
  · intro line te es hte hany
    have hfalse : ¬ (((es.map Prod.fst).any
        (fun k => k = lowerStr te.1)) = true) := by simp [hany]
    by_cases hne : te.2 ≠ ""
    · by_cases hex : P3.normalizeExample te.2 te.1 ≠ ""
      · refine ⟨[P3.normalizeExample te.2 te.1], Or.inr rfl, ?_⟩
        rw [P3.nlStep_eq_num hte, P3.nlStepNum]
        rw [if_neg hfalse]
        rw [if_pos hne]
        rw [if_pos hex]
        exact P3.pushExampleKey_append_last _ _ ⟨te.1, []⟩ es hany
      · refine ⟨[], Or.inl rfl, ?_⟩
        rw [P3.nlStep_eq_num hte, P3.nlStepNum]
        rw [if_neg hfalse]
        rw [if_pos hne]
        rw [if_neg hex]
    · refine ⟨[], Or.inl rfl, ?_⟩
      rw [P3.nlStep_eq_num hte, P3.nlStepNum]
      rw [if_neg hfalse]
      rw [if_neg hne]

/-- Witness for claim C10: the second `CYBERANGRIFF` line merges its
example into the existing `Cyberangriff` entry in place. -/
theorem claim_C10_ci_merge_witness :
    P3.nlStep [(lowerStr ("CYBERANGRIFF"), ⟨"Cyberangriff", ["Demo-A"]⟩)]
        ("2. CYBERANGRIFF – Demo-B")
      = [(lowerStr ("CYBERANGRIFF"),
          ⟨"Cyberangriff",
           ["Demo-A"] ++ [P3.normalizeExample ("Demo-B") ("CYBERANGRIFF")]⟩)] := by
  have h := claim_C10_ci_merge.2.1 ("2. CYBERANGRIFF – Demo-B")
    (("CYBERANGRIFF"), ("Demo-B")) ⟨"Cyberangriff", ["Demo-A"]⟩ [] []
    (by decide) (by decide) (by decide) (by decide)
  simpa using h

/-! ## `parseBenefitsBlock` from `src/unnamed/part_002` (lines 174–203) -/

namespace P2

/-- `split(/\r?\n/)`: line split accepting both `\n` and `\r\n`. -/
def splitCRNLChars : List Char → List (List Char)
  | [] => [[]]
  | [c] => if c = '\n' then [[], []] else [[c]]
  | c :: c2 :: cs =>
    if c = '\n' then [] :: splitCRNLChars (c2 :: cs)
    else if c = '\r' ∧ c2 = '\n' then [] :: splitCRNLChars cs
    else consHead c (splitCRNLChars (c2 :: cs))

/-- String-level `split(/\r?\n/)`. -/
def splitCRNL (s : String) : List String := (splitCRNLChars s.data).map String.mk

/-- `clean.replace(/^[-–]\s*Beispiele\s*:?/i, "")`: remove an anchored
leading dash-Beispiele marker, if present. -/
def stripLeadBeispiele (l : List Char) : List Char :=
  match l with
  | c :: r =>
    if c = '-' ∨ c = '–' then
      (match matchCI ("beispiele".data) (r.dropWhile isWs) with
       | some r2 =>
         (match r2.dropWhile isWs with
          | ':' :: r3 => r3
          | _ => r2.dropWhile isWs)
       | none => l)
    else l
  | [] => l

/-- The separator `\s+–\s+` matched at the head of the list, returning
the remainder after the match. -/
def dashSepAt2 (l : List Char) : Option (List Char) :=
  match l with
  | c :: _ =>
    if isWs c then
      (match l.dropWhile isWs with
       | '–' :: c2 :: r => if isWs c2 then some ((c2 :: r).dropWhile isWs) else none
       | _ => none)
    else none
  | [] => none

/-- `split(/\s+–\s+/)`, fuelled by the input length (every step consumes
at least one character, so the fuel suffices). -/
def splitDash2F : Nat → List Char → List (List Char)
  | _, [] => [[]]
  | 0, l => [l]
  | fuel + 1, l@(c :: cs) =>
    match dashSepAt2 l with
    | some rest => [] :: splitDash2F fuel rest
    | none => consHead c (splitDash2F fuel cs)

/-- `split(/\s+–\s+/)` on a character list. -/
def splitDash2 (l : List Char) : List (List Char) := splitDash2F l.length l

/-- `s.split(/\s+–\s+/, 2)`: the first two fields of the full split
(`none` when there is no separator at all). -/
def dashSplit2 (s : String) : String × Option String :=
  match splitDash2 s.data with
  | [] => ("", none)
  | [t] => (String.mk t, none)
  | t :: b :: _ => (String.mk t, some (String.mk b))

/-- `replace(/^\d+\.\s*/, "")`. -/
def stripNumLead (l : List Char) : List Char :=
  match l with
  | c :: _ =>
    if c.isDigit then
      (match l.dropWhile Char.isDigit with
       | '.' :: r => r.dropWhile isWs
       | _ => l)
    else l
  | [] => l

structure BItem where
  title : String
  bullets : List String
deriving DecidableEq

/-- `if (b) bullets.push(b.trim())` for one optional split field. -/
def bulletOf : Option String → List String
  | some b => if b ≠ "" then [strTrim b] else []
  | none => []

/-- One iteration of the pairing loop of `parseBenefitsBlock`
(`src/unnamed/part_002` lines 186–201): split both lines of the pair on
`\s+–\s+` (limit 2), take the first line's title with its number strip­ped
(falling back to the second line's), and collect up to one trimmed
bullet from each line. -/
def pairItem (l1 l2 : String) : Option BItem :=
  let p1 := dashSplit2 l1
  let p2 := dashSplit2 l2
  let title := strTrim (String.mk (stripNumLead p1.1.data))
  let bullets := bulletOf p1.2 ++ bulletOf p2.2
  let cleanTitle := if title ≠ "" then title
    else strTrim (String.mk (stripNumLead p2.1.data))
  if cleanTitle ≠ "" then some ⟨cleanTitle, bullets⟩ else none

/-- The pairing loop `for (let i = 0; i < lines.length; i += 2)`; a
missing second line reads as the empty string (`lines[i + 1] || ""`). -/
def pairLoop : List String → List BItem
  | [] => []
  | [l1] =>
    (match pairItem l1 ("") with
     | some it => [it]
     | none => [])
  | l1 :: l2 :: rest =>
    (match pairItem l1 l2 with
     | some it => it :: pairLoop rest
     | none => pairLoop rest)

/-- The trimmed nonempty lines that `parseBenefitsBlock` pairs up. -/
def benefitLines (raw : String) : List String :=
  ((splitCRNL (strTrim (String.mk (stripLeadBeispiele (strTrim raw).data)))).map
    strTrim).filter (fun l => l ≠ "")

/-- `parseBenefitsBlock(raw)` from `src/unnamed/part_002` lines 174–203:
strip a leading `– Beispiele:` marker, split into trimmed nonempty
lines, pair consecutive lines into items, keep at most 5. -/
def parseBenefitsBlock (raw : String) : List BItem :=
  (pairLoop (benefitLines raw)).take 5

theorem bulletOf_len_le (b : Option String) : (bulletOf b).length ≤ 1 := by
  cases b with
  | none => simp [bulletOf]
  | some b =>
    by_cases h : b ≠ "" <;> simp [bulletOf, h]

theorem pairItem_some (l1 l2 : String)
    (h : strTrim (String.mk (stripNumLead (dashSplit2 l1).1.data)) ≠ "") :
    pairItem l1 l2
      = some ⟨strTrim (String.mk (stripNumLead (dashSplit2 l1).1.data)),
          bulletOf (dashSplit2 l1).2 ++ bulletOf (dashSplit2 l2).2⟩ := by
  simp only [pairItem]
  rw [if_pos h]
  rw [if_pos h]

theorem pairItem_bullets (l1 l2 : String) (it : BItem)
    (h : pairItem l1 l2 = some it) : it.bullets.length ≤ 2 := by
  have h1 := bulletOf_len_le (dashSplit2 l1).2
  have h2 := bulletOf_len_le (dashSplit2 l2).2
  have hb : it.bullets = bulletOf (dashSplit2 l1).2 ++ bulletOf (dashSplit2 l2).2 := by
    simp only [pairItem] at h
    split at h <;>
      (try split at h) <;>
      first
        | (injection h with h3
           rw [← h3])
        | exact absurd h (by simp)
  rw [hb, List.length_append]
  omega

theorem pairLoop_length :
    ∀ lines : List String,
      (∀ l ∈ lines, strTrim (String.mk (stripNumLead (dashSplit2 l).1.data)) ≠ "") →
      (pairLoop lines).length = (lines.length + 1) / 2
  | [], _ => rfl
  | [l1], h => by
    rw [pairLoop, pairItem_some l1 ("") (h l1 (by simp))]
    simp
  | l1 :: l2 :: rest, h => by
    rw [pairLoop, pairItem_some l1 l2 (h l1 (by simp))]
    have ih := pairLoop_length rest (fun l hl => h l (by simp [hl]))
    simp only [List.length_cons, ih]
    omega

theorem pairLoop_bullets :
    ∀ lines : List String, ∀ it ∈ pairLoop lines, it.bullets.length ≤ 2
  | [], it, h => by simp [pairLoop] at h
  | [l1], it, h => by
    cases hp : pairItem l1 ("") with
    | some it0 =>
      have h2 : it ∈ [it0] := by
        rw [pairLoop, hp] at h
        exact h
      simp only [List.mem_singleton] at h2
      subst h2
      exact pairItem_bullets l1 ("") it hp
    | none =>
      have h2 : it ∈ ([] : List BItem) := by
        rw [pairLoop, hp] at h
        exact h
      simp at h2
  | l1 :: l2 :: rest, it, h => by
    cases hp : pairItem l1 l2 with
    | some it0 =>
      have h2 : it ∈ it0 :: pairLoop rest := by
        rw [pairLoop, hp] at h
        exact h
      rcases List.mem_cons.mp h2 with rfl | h3
      · exact pairItem_bullets l1 l2 it hp
      · exact pairLoop_bullets rest it h3
    | none =>
      have h2 : it ∈ pairLoop rest := by
        rw [pairLoop, hp] at h
        exact h
      exact pairLoop_bullets rest it h2

end P2

/-- Demo degenerate benefits block: 7 flat numbered lines, no bullets. -/
def cexBenefits7 : String :=
  "1. Alpha – Beta\n2. Gamma – Delta\n3. Epsilon – Zeta\n4. Eta – Theta\n5. Iota – Kappa\n6. Lambda – Mu\n7. Nu – Xi"

/-- Counterexample to claim C5 as stated: a degenerate block of 7
numbered lines without bullet lines yields 4 items, which is
`min(5, ceil(7/2))`, not the claimed `min(5, floor(7/2)) = 3`. -/
theorem claim_C5_counterexample :
    (P2.benefitLines cexBenefits7).length = 7
    ∧ (∀ l ∈ P2.benefitLines cexBenefits7, P3.isBulletLine l.data = false)
    ∧ (P2.parseBenefitsBlock cexBenefits7).length = 4
    ∧ (P2.parseBenefitsBlock cexBenefits7).length
        ≠ min 5 ((P2.benefitLines cexBenefits7).length / 2) := by decide

/-- Claim C5 (amended): for every input block whose trimmed nonempty
lines all carry a nonempty title before the first ` – ` separator (after
stripping the `^\d+\.\s*` number), the pairing loop of
`parseBenefitsBlock` pairs consecutive lines unconditionally — whether
or not bullet lines are present — and yields exactly
`min(5, ceil(n/2))` items for `n` input lines, each with at most 2
bullets taken from the two paired lines. -/
theorem claim_C5_degenerate_pairing (raw : String)
    (h : ∀ l ∈ P2.benefitLines raw,
      strTrim (String.mk (P2.stripNumLead (P2.dashSplit2 l).1.data)) ≠ "") :
    (P2.parseBenefitsBlock raw).length
        = min 5 (((P2.benefitLines raw).length + 1) / 2)
    ∧ ∀ it ∈ P2.parseBenefitsBlock raw, it.bullets.length ≤ 2 := by
  constructor
  · simp only [P2.parseBenefitsBlock, List.length_take]
    rw [P2.pairLoop_length (P2.benefitLines raw) h]
  · intro it hit
    simp only [P2.parseBenefitsBlock] at hit
    exact P2.pairLoop_bullets _ it ((List.take_sublist _ _).subset hit)

/-- Witness for claim C5 at the 7-line demo block: 4 items result. -/
theorem claim_C5_degenerate_pairing_witness :
    (P2.parseBenefitsBlock cexBenefits7).length
        = min 5 (((P2.benefitLines cexBenefits7).length + 1) / 2) :=
  (claim_C5_degenerate_pairing cexBenefits7 (by decide)).1

/-! ## Round trip of `joinNL` with `split("\n")` for newline-free lines -/

theorem splitNLChars_no_nl :
    ∀ l : List Char, (∀ c ∈ l, c ≠ '\n') → splitNLChars l = [l]
  | [], _ => rfl
  | c :: cs, h => by
    have hc : ¬ (c = '\n') := h c (by simp)
    rw [splitNLChars, if_neg hc,
      splitNLChars_no_nl cs (fun a ha => h a (by simp [ha]))]
    rfl

theorem splitNLChars_append (rest : List Char) :
    ∀ l : List Char, (∀ c ∈ l, c ≠ '\n') →
      splitNLChars (l ++ '\n' :: rest) = l :: splitNLChars rest
  | [], _ => by
    rw [List.nil_append, splitNLChars, if_pos rfl]
  | c :: cs, h => by
    have hc : ¬ (c = '\n') := h c (by simp)
    rw [List.cons_append, splitNLChars, if_neg hc,
      splitNLChars_append rest cs (fun a ha => h a (by simp [ha]))]
    rfl

theorem splitNL_joinNL :
    ∀ ls : List String, ls ≠ [] →
      (∀ l ∈ ls, ∀ c ∈ l.data, c ≠ '\n') → splitNL (joinNL ls) = ls
  | [], hne, _ => absurd rfl hne
  | [x], _, h => by
    rw [joinNL_single, splitNL,
      splitNLChars_no_nl x.data (fun c hc => h x (by simp) c hc)]
    simp [mk_data_eq]
  | x :: y :: ys, _, h => by
    have hd : (joinNL (x :: y :: ys)).data
        = x.data ++ '\n' :: (joinNL (y :: ys)).data := by
      rw [joinNL_cons, String.data_append, String.data_append, nl_data,
        List.append_assoc]
      rfl
    rw [splitNL, hd,
      splitNLChars_append _ x.data (fun c hc => h x (by simp) c hc),
      List.map_cons, mk_data_eq]
    have ih := splitNL_joinNL (y :: ys) (by simp)
      (fun l hl => h l (List.mem_cons_of_mem x hl))
    rw [splitNL] at ih
    rw [ih]

theorem joinNL_mem_char {c : Char} :
    ∀ ls : List String, c ∈ (joinNL ls).data → c = '\n' ∨ ∃ l ∈ ls, c ∈ l.data
  | [], h => by simp [joinNL] at h
  | [x], h => Or.inr ⟨x, by simp, h⟩
  | x :: y :: ys, h => by
    rw [joinNL_cons, String.data_append, String.data_append, nl_data] at h
    rcases List.mem_append.mp h with h1 | h2
    · rcases List.mem_append.mp h1 with h3 | h4
      · exact Or.inr ⟨x, by simp, h3⟩
      · exact Or.inl (by simpa using h4)
    · rcases joinNL_mem_char (y :: ys) h2 with h5 | ⟨l, hl, hc⟩
      · exact Or.inl h5
      · exact Or.inr ⟨l, by simp [hl], hc⟩

theorem removeCR_eq_self {s : String} (h : ∀ c ∈ s.data, c ≠ '\r') :
    removeCR s = s := by
  simp only [removeCR]
  rw [List.filter_eq_self.mpr (fun a ha => by simp [h a ha])]

theorem splitNL_removeCR_joinNL (ls : List String) (hne : ls ≠ [])
    (h : ∀ l ∈ ls, ∀ c ∈ l.data, c ≠ '\n' ∧ c ≠ '\r') :
    splitNL (removeCR (joinNL ls)) = ls := by
  have hcr : ∀ c ∈ (joinNL ls).data, c ≠ '\r' := by
    intro c hc
    rcases joinNL_mem_char ls hc with rfl | ⟨l, hl, hcl⟩
    · decide
    · exact (h l hl c hcl).2
  rw [removeCR_eq_self hcr]
  exact splitNL_joinNL ls hne (fun l hl c hc => (h l hl c hc).1)

/-! ## Bucket accessors and the fold of `parseTriggers` -/

namespace P3

/-- Read one bucket of the `blocks` record. -/
def catGet : TrigCat → TrigBlocks → List String
  | .aengste, b => b.aengste
  | .ziele, b => b.ziele
  | .vorbehalte, b => b.vorbehalte

/-- Push a list of items into one bucket in order. -/
def pushAll (cat : TrigCat) (items : List String) (b : TrigBlocks) : TrigBlocks :=
  items.foldl (fun b2 s => pushCat cat s b2) b

theorem catGet_pushCat (c cat : TrigCat) (s : String) (b : TrigBlocks) :
    catGet c (pushCat cat s b)
      = if c = cat then catGet c b ++ [s] else catGet c b := by
  cases c <;> cases cat <;> simp [catGet, pushCat]

theorem catGet_pushAll (c cat : TrigCat) :
    ∀ (items : List String) (b : TrigBlocks),
      catGet c (pushAll cat items b)
        = if c = cat then catGet c b ++ items else catGet c b
  | [], b => by
    by_cases h : c = cat <;> simp [pushAll, h]
  | s :: items, b => by
    simp only [pushAll, List.foldl_cons]
    have ih := catGet_pushAll c cat items (pushCat cat s b)
    simp only [pushAll] at ih
    rw [ih, catGet_pushCat]
    by_cases h : c = cat <;> simp [h]

theorem trigFold (cat : TrigCat) :
    ∀ (ts : List String) (b : TrigBlocks),
      (∀ l ∈ ts, isTrigHeader l.data = false) →
      (∀ l ∈ ts, l = "" ∨ (trigNumPayload l.data).isSome = true) →
      ts.foldl trigStep (b, some cat)
        = (pushAll cat (ts.filterMap
            (fun l => (trigNumPayload l.data).map
              (fun p => String.mk (trimChars p)))) b, some cat)
  | [], b => by
    intro _ _
    simp [pushAll]
  | l :: ts, b => by
    intro hh hs
    rw [List.foldl_cons]
    by_cases he : l = ""
    · subst he
      have hstep : trigStep (b, some cat) ("") = (b, some cat) := by
        rw [trigStep, if_pos rfl]
      rw [hstep, trigFold cat ts b (fun x hx => hh x (by simp [hx]))
        (fun x hx => hs x (by simp [hx]))]
      simp [List.filterMap_cons, show trigNumPayload ("" : String).data = none from rfl]
    · have hhd := hh l (by simp)
      have hso := (hs l (by simp)).resolve_left he
      obtain ⟨p, hp⟩ := Option.isSome_iff_exists.mp hso
      have hstep : trigStep (b, some cat) l
          = (pushCat cat (String.mk (trimChars p)) b, some cat) := by
        simp only [trigStep, if_neg he]
        rw [if_neg (show ¬ (isTrigHeader l.data = true) from by simp [hhd])]
        rw [hp]
      rw [hstep, trigFold cat ts (pushCat cat (String.mk (trimChars p)) b)
        (fun x hx => hh x (by simp [hx])) (fun x hx => hs x (by simp [hx]))]
      simp [List.filterMap_cons, hp, pushAll, List.foldl_cons]

end P3

/-! ## `parseTriggerGroups` from `src/api/create-pdf.js` (lines 395–415) -/

namespace V2

structure TGroup where
  title : String
  items : List String
deriving DecidableEq

/-- One alternative of the v2 header regex followed by `\s*:?\s*$`,
returning the slice of the input matched by the capture group (the
category word with its original casing). -/
def altEndCap (w : String) (l : List Char) : Option (List Char) :=
  match matchCI w.data l with
  | some r =>
    (match r.dropWhile isWs with
     | [] => some (l.take w.data.length)
     | ':' :: r2 =>
       if (r2.dropWhile isWs).isEmpty then some (l.take w.data.length) else none
     | _ => none)
  | none => none

/-- `/^Typische\s+(Ängste|Ziele|Vorurteile)\s*:?\s*$/i.exec(line)`:
the capture `groupMatch[1]` verbatim from the input
(`src/api/create-pdf.js` line 403). -/
def trigGroupCap (l : List Char) : Option (List Char) :=
  match matchCI ("typische".data) l with
  | some (c :: rest) =>
    if isWs c then
      (let r2 := (c :: rest).dropWhile isWs
       match altEndCap ("Ängste") r2 with
       | some cap => some cap
       | none =>
         (match altEndCap ("Ziele") r2 with
          | some cap => some cap
          | none => altEndCap ("Vorurteile") r2))
    else none
  | _ => none

/-- `/^\d+\.\s+/` tested and stripped:
`line.replace(/^\d+\.\s+/, "")` when the test succeeds. -/
def trigItemOf (l : List Char) : Option (List Char) :=
  let ds := l.takeWhile Char.isDigit
  if ds.isEmpty then none
  else
    (match l.drop ds.length with
     | '.' :: c :: rest =>
       if isWs c then some ((c :: rest).dropWhile isWs) else none
     | _ => none)

/-- One line of the `parseTriggerGroups` loop
(`src/api/create-pdf.js` lines 400–412): the state holds the finished
groups and the currently open group. -/
def tgStep (st : List TGroup × Option TGroup) (rawLine : String) :
    List TGroup × Option TGroup :=
  let line := strTrim rawLine
  match trigGroupCap line.data with
  | some cap =>
    (match st.2 with
     | some g => (st.1 ++ [g], some ⟨("Typische ") ++ String.mk cap, []⟩)
     | none => (st.1, some ⟨("Typische ") ++ String.mk cap, []⟩))
  | none =>
    (match trigItemOf line.data with
     | some item =>
       (match st.2 with
        | some g => (st.1, some ⟨g.title, g.items ++ [String.mk item]⟩)
        | none => st)
     | none => st)

/-- `parseTriggerGroups(raw)` from `src/api/create-pdf.js` lines
395–415. -/
def parseTriggerGroups (raw : String) : List TGroup :=
  match (splitNL (removeCR raw)).foldl tgStep ([], none) with
  | (blocks, some g) => blocks ++ [g]
  | (blocks, none) => blocks

theorem tgFold :
    ∀ (ts : List String) (blocks : List TGroup) (g : TGroup),
      (∀ l ∈ ts, trigGroupCap (strTrim l).data = none) →
      ts.foldl tgStep (blocks, some g)
        = (blocks, some ⟨g.title, g.items ++ ts.filterMap
            (fun l => (trigItemOf (strTrim l).data).map String.mk)⟩)
  | [], blocks, g => by
    intro _
    simp
  | l :: ts, blocks, g => by
    intro h
    rw [List.foldl_cons]
    have hcapn := h l (by simp)
    cases hi : trigItemOf (strTrim l).data with
    | some item =>
      have hstep : tgStep (blocks, some g) l
          = (blocks, some ⟨g.title, g.items ++ [String.mk item]⟩) := by
        simp only [tgStep, hcapn, hi]
      rw [hstep, tgFold ts blocks _ (fun x hx => h x (by simp [hx]))]
      simp [List.filterMap_cons, hi, List.append_assoc]
    | none =>
      have hstep : tgStep (blocks, some g) l = (blocks, some g) := by
        simp only [tgStep, hcapn, hi]
      rw [hstep, tgFold ts blocks g (fun x hx => h x (by simp [hx]))]
      simp [List.filterMap_cons, hi]

end V2

/-- Claim C7: for every Shape-1 input — one category header line followed
by flat numbered (or blank) lines, no bullet lines, fewer than 6 numbered
entries — both trigger parsers keep each item's text after the number
verbatim after trimming, with no examples attached: `parseTriggers`
(`src/unnamed/part_003`) fills exactly the bucket selected by the header
with the trimmed payloads in input order and leaves the other buckets
empty, and `parseTriggerGroups` (`src/api/create-pdf.js`) returns the
single group titled `Typische <captured word>` whose items are the
payloads verbatim. -/
theorem claim_C7_shape1 (hdr : String) (ls : List String) (cap : List Char)
    (hchars : ∀ l ∈ hdr :: ls, ∀ c ∈ l.data, c ≠ '\n' ∧ c ≠ '\r')
    (hhdr : P3.isTrigHeader (strTrim hdr).data = true)
    (hcap : V2.trigGroupCap (strTrim hdr).data = some cap)
    (hnothdr : ∀ l ∈ ls, P3.isTrigHeader (strTrim l).data = false)
    (hnocap : ∀ l ∈ ls, V2.trigGroupCap (strTrim l).data = none)
    (hshape : ∀ l ∈ ls, strTrim l = ""
      ∨ (P3.trigNumPayload (strTrim l).data).isSome = true)
    (hcount : ls.length < 6) :
    (P3.catGet (P3.trigCatOf (strTrim hdr).data)
        (P3.parseTriggers (joinNL (hdr :: ls)))
      = ls.filterMap (fun l => (P3.trigNumPayload (strTrim l).data).map
          (fun p => String.mk (trimChars p))))
    ∧ (∀ c : P3.TrigCat, c ≠ P3.trigCatOf (strTrim hdr).data →
        P3.catGet c (P3.parseTriggers (joinNL (hdr :: ls))) = [])
    ∧ V2.parseTriggerGroups (joinNL (hdr :: ls))
      = [⟨("Typische ") ++ String.mk cap,
          ls.filterMap (fun l => (V2.trigItemOf (strTrim l).data).map String.mk)⟩] := by
  have hlines : splitNL (removeCR (joinNL (hdr :: ls))) = hdr :: ls :=
    splitNL_removeCR_joinNL (hdr :: ls) (by simp) hchars
  have hne : strTrim hdr ≠ "" := by
    intro h0
    rw [h0] at hhdr
    exact absurd hhdr (by decide)
  have hstep0 : P3.trigStep (⟨[], [], []⟩, none) (strTrim hdr)
      = (⟨[], [], []⟩, some (P3.trigCatOf (strTrim hdr).data)) := by
    simp only [P3.trigStep, if_neg hne]
    rw [if_pos hhdr]
  have hP3 : P3.parseTriggers (joinNL (hdr :: ls))
      = P3.pushAll (P3.trigCatOf (strTrim hdr).data)
          (ls.filterMap (fun l => (P3.trigNumPayload (strTrim l).data).map
            (fun p => String.mk (trimChars p)))) ⟨[], [], []⟩ := by
    simp only [P3.parseTriggers]
    rw [hlines, List.map_cons, List.foldl_cons, hstep0,
      P3.trigFold (P3.trigCatOf (strTrim hdr).data) (ls.map strTrim) ⟨[], [], []⟩
        (fun l hl => by
          obtain ⟨l0, hl0, rfl⟩ := List.mem_map.mp hl
          exact hnothdr l0 hl0)
        (fun l hl => by
          obtain ⟨l0, hl0, rfl⟩ := List.mem_map.mp hl
          exact hshape l0 hl0)]
    rw [List.filterMap_map]
    rfl
  have hinit : ∀ c : P3.TrigCat, P3.catGet c ⟨[], [], []⟩ = [] := by
    intro c
    cases c <;> rfl
  refine ⟨?_, ?_, ?_⟩
  · rw [hP3, P3.catGet_pushAll, if_pos rfl, hinit, List.nil_append]
  · intro c hc
    rw [hP3, P3.catGet_pushAll, if_neg hc, hinit]
  · have hstep0v : V2.tgStep ([], none) hdr
        = ([], some ⟨("Typische ") ++ String.mk cap, []⟩) := by
      simp only [V2.tgStep, hcap]
    simp only [V2.parseTriggerGroups]
    rw [hlines, List.foldl_cons, hstep0v, V2.tgFold ls [] _ hnocap]
    simp

/-- Witness for claim C7 at a concrete Shape-1 block with two numbered
lines. -/
theorem claim_C7_shape1_witness :
    V2.parseTriggerGroups
        (joinNL (("Typische Ängste:") :: [("1. Angst A"), ("2. Angst B")]))
      = [⟨("Typische ") ++ String.mk (("Ängste").data),
          [("1. Angst A"), ("2. Angst B")].filterMap
            (fun l => (V2.trigItemOf (strTrim l).data).map String.mk)⟩] :=
  (claim_C7_shape1 ("Typische Ängste:") [("1. Angst A"), ("2. Angst B")]
    (("Ängste").data) (by decide) (by decide) (by decide) (by decide)
    (by decide) (by decide) (by decide)).2.2

/-! ## Label/list rendering events of the benefits sections -/

inductive Ev
  | label (text : String)
  | item (title : String)
  | bullet (text : String)
deriving DecidableEq

namespace V1

/-- The pattern `\s*label\s*:` matched at the head of the list: the
matched length. -/
def labelAt (label : List Char) (l : List Char) : Option Nat :=
  let w1 := l.takeWhile isWs
  match matchCI label (l.drop w1.length) with
  | some r =>
    (let w2 := r.takeWhile isWs
     match r.drop w2.length with
     | ':' :: _ => some (w1.length + label.length + w2.length + 1)
     | _ => none)
  | none => none

/-- The `m`-flagged regex search for `^\s*label\s*:` (case-insensitive):
try every line-start position, returning match index and length. -/
def findLabel (label : List Char) : Bool → Nat → List Char → Option (Nat × Nat)
  | atStart, i, [] =>
    if atStart then
      (match labelAt label [] with
       | some len => some (i, len)
       | none => none)
    else none
  | atStart, i, c :: cs =>
    if atStart then
      (match labelAt label (c :: cs) with
       | some len => some (i, len)
       | none => findLabel label (c = '\n') (i + 1) cs)
    else findLabel label (c = '\n') (i + 1) cs

/-- `getLabeledBlock(fullText, label, nextLabels)` from
`src/api/create-pdf.js` lines 127–145: the text between the labelled
line and the first following next-label line, trimmed. -/
def getLabeledBlock (fullText : String) (label : String)
    (nextLabels : List String) : String :=
  match findLabel label.data true 0 fullText.data with
  | none => ""
  | some (idx, len) =>
    let rest := fullText.data.drop (idx + len)
    let endRel := nextLabels.foldl (fun acc nxt =>
      match findLabel nxt.data true 0 rest with
      | some (j, _) => min acc j
      | none => acc) rest.length
    String.mk (trimChars (rest.take endRel))

structure TGroupB where
  title : String
  bullets : List String
deriving DecidableEq

/-- `/^\d+\.\s+/` tested and stripped (`parseTitleWithBullets`). -/
def numStrip (l : List Char) : Option (List Char) :=
  let ds := l.takeWhile Char.isDigit
  if ds.isEmpty then none
  else
    (match l.drop ds.length with
     | '.' :: c :: rest =>
       if isWs c then some ((c :: rest).dropWhile isWs) else none
     | _ => none)

/-- `/^(?:-|–|•)\s+/` tested and stripped. -/
def bulletStrip (l : List Char) : Option (List Char) :=
  match l with
  | c :: c2 :: rest =>
    if (c = '-' ∨ c = '–' ∨ c = '•') ∧ isWs c2
    then some ((c2 :: rest).dropWhile isWs) else none
  | _ => none

/-- One line of the `parseTitleWithBullets` loop
(`src/api/create-pdf.js` lines 159–179): numbered lines open a new
group, bullet lines extend the open group's bullets, other nonempty
lines are absorbed into the open group's title. -/
def twbStep (st : List TGroupB × Option TGroupB) (rawLine : String) :
    List TGroupB × Option TGroupB :=
  let line := strTrim rawLine
  match numStrip line.data with
  | some t =>
    (match st.2 with
     | some g => (st.1 ++ [g], some ⟨strTrim (String.mk t), []⟩)
     | none => (st.1, some ⟨strTrim (String.mk t), []⟩))
  | none =>
    (match bulletStrip line.data with
     | some b =>
       (match st.2 with
        | some g => (st.1, some ⟨g.title, g.bullets ++ [strTrim (String.mk b)]⟩)
        | none => (st.1, some ⟨"", [strTrim (String.mk b)]⟩))
     | none =>
       if line ≠ "" then
         (match st.2 with
          | some g =>
            (st.1, some ⟨(if g.title ≠ "" then g.title ++ (" ") ++ line else line),
              g.bullets⟩)
          | none => (st.1, some ⟨line, []⟩))
       else st)

/-- `parseTitleWithBullets(block)` from `src/api/create-pdf.js` lines
159–180. -/
def parseTitleWithBullets (block : String) : List TGroupB :=
  match (P2.splitCRNL block).foldl twbStep ([], none) with
  | (gs, some g) => gs ++ [g]
  | (gs, none) => gs

/-- The item and bullet draw events of one benefits category
(`drawNumberedList` with the title, then `drawBullets`, per group). -/
def titleGroupEvents (gs : List TGroupB) : List Ev :=
  gs.flatMap (fun g => Ev.item g.title :: g.bullets.map Ev.bullet)

/-- The label and list events produced by the benefits branch of
`renderGptContent` (`src/api/create-pdf.js` lines 224–248): each of the
three labels is drawn unconditionally, followed by the parsed groups of
its block. -/
def renderBenefitsEvents (txt : String) : List Ev :=
  (Ev.label ("Typische Ängste")
      :: titleGroupEvents (parseTitleWithBullets
        (getLabeledBlock txt ("Typische Ängste")
          [("Typische Ziele"), ("Typische Vorurteile")])))
    ++ (Ev.label ("Typische Ziele")
      :: titleGroupEvents (parseTitleWithBullets
        (getLabeledBlock txt ("Typische Ziele") [("Typische Vorurteile")])))
    ++ (Ev.label ("Typische Vorurteile")
      :: titleGroupEvents (parseTitleWithBullets
        (getLabeledBlock txt ("Typische Vorurteile") [])))

end V1

/-! ## `splitByLabels` / `parseAdvantages` and the guarded rendering of
`src/unnamed/part_001` -/

namespace P1

inductive ACat
  | aeng
  | ziel
  | vorb
deriving DecidableEq

structure LBlocks where
  aeng : List String
  ziel : List String
  vorb : List String
deriving DecidableEq

/-- `labels.find(l => line.toLowerCase().startsWith(l.toLowerCase()))`
for the three fixed labels of `splitByLabels`. -/
def labelOf (line : List Char) : Option ACat :=
  if (matchCI (("Typische Ängste").data) line).isSome then some .aeng
  else if (matchCI (("Typische Ziele").data) line).isSome then some .ziel
  else if (matchCI (("Typische Vorurteile").data) line).isSome then some .vorb
  else none

def resetCat : ACat → LBlocks → LBlocks
  | .aeng, b => ⟨[], b.ziel, b.vorb⟩
  | .ziel, b => ⟨b.aeng, [], b.vorb⟩
  | .vorb, b => ⟨b.aeng, b.ziel, []⟩

def pushRaw : ACat → String → LBlocks → LBlocks
  | .aeng, s, b => ⟨b.aeng ++ [s], b.ziel, b.vorb⟩
  | .ziel, s, b => ⟨b.aeng, b.ziel ++ [s], b.vorb⟩
  | .vorb, s, b => ⟨b.aeng, b.ziel, b.vorb ++ [s]⟩

/-- One line of the `splitByLabels` loop (`src/unnamed/part_001` lines
140–160): label lines switch (and reset) the current bucket, other
nonempty lines are collected raw under the current label. -/
def sblStep (st : LBlocks × Option ACat) (raw : String) : LBlocks × Option ACat :=
  let line := strTrim raw
  if line = "" then st
  else
    match labelOf line.data with
    | some c => (resetCat c st.1, some c)
    | none =>
      (match st.2 with
       | some c => (pushRaw c raw st.1, st.2)
       | none => st)

structure ABlocks where
  aeng : String
  ziel : String
  vorb : String
deriving DecidableEq

/-- `splitByLabels(text, labels)` from `src/unnamed/part_001` lines
140–160, with each bucket joined back with `"\n"` (a missing label and
an empty bucket both read as `""` downstream). -/
def splitByLabels (text : String) : ABlocks :=
  let b := ((P2.splitCRNL text).foldl sblStep (⟨[], [], []⟩, none)).1
  ⟨joinNL b.aeng, joinNL b.ziel, joinNL b.vorb⟩

structure AItem where
  title : String
  bullets : List String
deriving DecidableEq

/-- `line.match(/^(\d+)\.\s+(.*)$/)`, returning `m[2]`. -/
def numRest (l : List Char) : Option (List Char) :=
  let ds := l.takeWhile Char.isDigit
  if ds.isEmpty then none
  else
    (match l.drop ds.length with
     | '.' :: c :: rest =>
       if isWs c then some ((c :: rest).dropWhile isWs) else none
     | _ => none)

/-- `line.match(/^[-–•]\s*(.*)$/)`, returning `m[1]`. -/
def bulRest (l : List Char) : Option (List Char) :=
  match l with
  | c :: rest =>
    if c = '-' ∨ c = '–' ∨ c = '•' then some (rest.dropWhile isWs) else none
  | [] => none

/-- `current.bullets[current.bullets.length - 1] += " " + line`. -/
def appendLast (suf : String) : List String → List String
  | [] => []
  | [b] => [b ++ suf]
  | b :: b2 :: bs => b :: appendLast suf (b2 :: bs)

/-- One line of `parseAdvantages`' `parseGroup` loop
(`src/unnamed/part_001` lines 103–130): numbered lines open an item,
bullet lines extend the open item, any other nonempty line is appended
to the open item's last bullet when one exists, and is dropped
otherwise. -/
def agStep (st : List AItem × Option AItem) (raw : String) :
    List AItem × Option AItem :=
  let line := strTrim raw
  if line = "" then st
  else
    match numRest line.data with
    | some r =>
      (match st.2 with
       | some g => (st.1 ++ [g], some ⟨strTrim (String.mk r), []⟩)
       | none => (st.1, some ⟨strTrim (String.mk r), []⟩))
    | none =>
      (match bulRest line.data, st.2 with
       | some b, some g =>
         (st.1, some ⟨g.title, g.bullets ++ [strTrim (String.mk b)]⟩)
       | _, _ =>
         (match st.2 with
          | some g =>
            if g.bullets ≠ [] then
              (st.1, some ⟨g.title, appendLast ((" ") ++ line) g.bullets⟩)
            else st
          | none => st))

structure Adv where
  aengste : List AItem
  ziele : List AItem
  vorbehalte : List AItem
deriving DecidableEq

/-- `parseGroup(t)` inside `parseAdvantages` (`src/unnamed/part_001`
lines 103–131). -/
def parseGroup (t : String) : List AItem :=
  match (P2.splitCRNL t).foldl agStep ([], none) with
  | (items, some g) => items ++ [g]
  | (items, none) => items

/-- `parseAdvantages(text)` from `src/unnamed/part_001` lines 100–138. -/
def parseAdvantages (text : String) : Adv :=
  ⟨parseGroup (splitByLabels text).aeng,
   parseGroup (splitByLabels text).ziel,
   parseGroup (splitByLabels text).vorb⟩

/-- The item and bullet events of one advantages category
(`drawNumberWithBullets`). -/
def itemEvents (gs : List AItem) : List Ev :=
  gs.flatMap (fun g => Ev.item g.title :: g.bullets.map Ev.bullet)

/-- The guarded label/list events of the advantages section of the
part_001 handler (lines 370–386): a label is drawn only when its
category parsed to a nonempty item list. -/
def advEvents (text : String) : List Ev :=
  (if (parseAdvantages text).aengste ≠ [] then
      Ev.label ("Typische Ängste") :: itemEvents (parseAdvantages text).aengste
    else [])
  ++ (if (parseAdvantages text).ziele ≠ [] then
      Ev.label ("Typische Ziele") :: itemEvents (parseAdvantages text).ziele
    else [])
  ++ (if (parseAdvantages text).vorbehalte ≠ [] then
      Ev.label ("Typische Vorurteile") :: itemEvents (parseAdvantages text).vorbehalte
    else [])

theorem label_not_mem_itemEvents (t : String) (gs : List AItem) :
    Ev.label t ∉ itemEvents gs := by
  intro h
  simp only [itemEvents, List.mem_flatMap] at h
  obtain ⟨g, _, hg⟩ := h
  rcases List.mem_cons.mp hg with h1 | h2
  · exact Ev.noConfusion h1
  · obtain ⟨b, _, hb⟩ := List.mem_map.mp h2
    exact Ev.noConfusion hb

end P1

/-- Demo benefits section text whose `Typische Ziele` group is empty. -/
def cexSectionText : String :=
  "Typische Ängste:\n1. Angst A\n– Beispiel A\nTypische Ziele:\nTypische Vorurteile:\n1. Vorurteil V"

/-- Counterexample to claim C8 as stated: in `renderGptContent` of
`src/api/create-pdf.js` the `Typische Ziele` category of the demo
section parses to zero items, yet its label line is still rendered. -/
theorem claim_C8_counterexample :
    V1.parseTitleWithBullets
        (V1.getLabeledBlock cexSectionText ("Typische Ziele")
          [("Typische Vorurteile")]) = []
    ∧ (V1.renderBenefitsEvents cexSectionText).any
        (fun e => e = Ev.label ("Typische Ziele")) = true := by decide

/-- Claim C8 (amended): the advantage parser of `src/unnamed/part_001`
never fails on malformed lines — a line matching neither the numbered
nor the bullet pattern while no item is open is skipped without effect —
and in the part_001 handler (lines 370–386) a category label is rendered
in the advantages section if and only if its category parsed to a
nonempty item list; `renderGptContent` of `src/api/create-pdf.js`
instead draws the three labels unconditionally. -/
theorem claim_C8_empty_group :
    (∀ (st : List P1.AItem × Option P1.AItem) (raw : String),
      P1.numRest (strTrim raw).data = none →
      P1.bulRest (strTrim raw).data = none →
      st.2 = none →
      P1.agStep st raw = st)
    ∧ (∀ text : String,
        (Ev.label ("Typische Ängste") ∈ P1.advEvents text
          ↔ (P1.parseAdvantages text).aengste ≠ [])
        ∧ (Ev.label ("Typische Ziele") ∈ P1.advEvents text
          ↔ (P1.parseAdvantages text).ziele ≠ [])
        ∧ (Ev.label ("Typische Vorurteile") ∈ P1.advEvents text
          ↔ (P1.parseAdvantages text).vorbehalte ≠ [])) := by
  constructor
  · intro st raw h1 h2 h3
    by_cases he : strTrim raw = ""
    · simp [P1.agStep, he]
    · simp [P1.agStep, he, h1, h2, h3]
  · intro text
    have hne1 : ("Typische Ängste" : String) ≠ ("Typische Ziele") := by decide
    have hne2 : ("Typische Ängste" : String) ≠ ("Typische Vorurteile") := by decide
    have hne3 : ("Typische Ziele" : String) ≠ ("Typische Vorurteile") := by decide
    refine ⟨?_, ?_, ?_⟩ <;>
    · by_cases h1 : (P1.parseAdvantages text).aengste ≠ [] <;>
        by_cases h2 : (P1.parseAdvantages text).ziele ≠ [] <;>
          by_cases h3 : (P1.parseAdvantages text).vorbehalte ≠ [] <;>
            simp [P1.advEvents, h1, h2, h3, P1.label_not_mem_itemEvents,
              hne1, hne2, hne3, hne1.symm, hne2.symm, hne3.symm]

/-- Witness for claim C8 at a concrete malformed line with no open
item. -/
theorem claim_C8_empty_group_witness :
    P1.agStep ([], none) ("plain continuation text") = ([], none) :=
  claim_C8_empty_group.1 ([], none) ("plain continuation text")
    (by decide) (by decide) rfl
